import Mathlib

/-!
# aurbrokenpkgcheck: the chunked stream tokenizer and its consumers

A shallow embedding of `aurbrokenpkgcheck.c`.  Bytes are natural numbers, a C
string is the list of its bytes before the terminating NUL, and a file
descriptor is the list of the chunks that successive `read` calls return
(the list ends, or holds an empty chunk, where `read` returns 0 or fails).
-/

namespace Aurbrokenpkgcheck

/-! ## Byte constants -/

/-- The byte `'\n'`. -/
def LF : Nat := 10
/-- The byte `'\r'`. -/
def CR : Nat := 13
/-- The byte `' '`. -/
def SP : Nat := 32
/-- The byte `':'`. -/
def COLON : Nat := 58

/-- The macro `BUFFER_SIZE`. -/
def BUFFER_SIZE : Nat := 256

/-- The constant `NAME_MAX` of `<limits.h>` (255 on Linux). -/
def NAME_MAX : Nat := 255

/-- The macro `PACMAN_ROOT_PATH_KEY`, the bytes of `"Root"`. -/
def PACMAN_ROOT_PATH_KEY : List Nat := [82, 111, 111, 116]

/-- The macro `PACMAN_DB_PATH_KEY`, the bytes of `"DB Path"`. -/
def PACMAN_DB_PATH_KEY : List Nat := [68, 66, 32, 80, 97, 116, 104]

/-! ## The tokenizer: struct stream_t and its scan loop -/

/-- The fields of `struct stream_t` that `stream_parser` and the callbacks use.
`string` is the current token (the bytes before the NUL that replaced the
delimiter); `delims` is `none` for a NULL pointer.  The callbacks of this
program only change `data`, so a callback is a function to the new `data`. -/
structure stream_t (σ : Type) where
  maxsize : Nat
  length : Nat
  delims : Option (List Nat)
  pos : Nat
  beg : Bool
  end_ : Bool
  string : List Nat
  string_length : Nat
  string_delim : Nat
  data : σ

/-- The C library function `strcspn`: the length of the longest prefix of the
NUL-terminated string `s` that holds no byte of `reject`. -/
def strcspn (s : List Nat) (reject : List Nat) : Nat :=
  (s.takeWhile (fun b => b != 0 && !(reject.contains b))).length

/-- The state `stream_parser_init` leaves: every field zeroed. -/
def stream_parser_init (d : σ) : stream_t σ :=
  { maxsize := 0, length := 0, delims := none, pos := 0, beg := false, end_ := false,
    string := [], string_length := 0, string_delim := 0, data := d }

/-- The inner `for` loop of `stream_parser` over the NUL-terminated buffer; `cur`
is what the cursor `st->string` points at, the bytes of the chunk from the cursor
on (the NUL at `buffer[length]` follows them).  One unit of fuel per iteration. -/
def stream_parser_scan (callback : stream_t σ → σ) :
    Nat → stream_t σ → List Nat → stream_t σ
  | 0, st, _ => st
  | fuel + 1, st, cur =>
    let len := strcspn cur (st.delims.getD [])
    let st1 := { st with string_length := len }
    if len = 0 ∧ cur.getD len 0 = 0 then st1
    else
      let st2 := { st1 with string_delim := cur.getD len 0, string := cur.take len }
      let st3 := if st2.end_ then { st2 with pos := st2.pos + 1, beg := true, end_ := false }
                 else st2
      let st4 := if st3.string_delim ≠ 0 then { st3 with end_ := true } else st3
      let st5 := { st4 with data := callback st4 }
      let st6 := { st5 with beg := false }
      if st6.string_delim = 0 then st6
      else stream_parser_scan callback fuel st6 (cur.drop (len + 1))

/-- The `while` loop of `stream_parser`: one iteration per chunk that `read`
returns, until `read` returns nothing. -/
def stream_parser_read (callback : stream_t σ → σ) :
    List (List Nat) → stream_t σ → stream_t σ
  | [], st => { st with length := 0 }
  | chunk :: fd, st =>
    if chunk.length = 0 then { st with length := 0 }
    else
      stream_parser_read callback fd
        (stream_parser_scan callback (chunk.length + 1)
          { st with length := chunk.length } chunk)

/-- The function `stream_parser` of the source, here `stream_parser_call`. The buffer
is the local one of `BUFFER_SIZE` bytes when `st->buffer` is NULL, which is the case at every call in this
program. -/
def stream_parser_call (callback : stream_t σ → σ) (fd : List (List Nat))
    (st : stream_t σ) : stream_t σ :=
  let st := { st with maxsize := BUFFER_SIZE, length := 0 }
  let st := if st.delims.isNone then { st with delims := some [CR, LF] } else st
  let st := { st with beg := true, end_ := false }
  stream_parser_read callback fd st

/-! ## Recording the callbacks -/

/-- What one callback invocation sees of the tokenizer state. -/
structure Fragment where
  pos : Nat
  beg : Bool
  end_ : Bool
  string : List Nat
  string_length : Nat
  string_delim : Nat
deriving DecidableEq, Repr

/-- The view a callback has of `st`. -/
def stream_t.fragment (st : stream_t σ) : Fragment :=
  { pos := st.pos, beg := st.beg, end_ := st.end_, string := st.string,
    string_length := st.string_length, string_delim := st.string_delim }

/-- The callback that appends what it sees to the list in `data`. -/
def record_callback (st : stream_t (List Fragment)) : List Fragment :=
  st.data ++ [st.fragment]

/-- The callbacks `stream_parser` makes on the chunks `fd` with delimiters `delims`,
in order. -/
def fragments (delims : List Nat) (fd : List (List Nat)) : List Fragment :=
  (stream_parser_call record_callback fd
    { stream_parser_init ([] : List Fragment) with delims := some delims }).data

/-- One step of assembling logical tokens: a callback with `beg` starts a token, any
other one extends the token being assembled, and a callback with `end` closes it,
pairing the joined strings with the delimiter of that closing fragment. -/
def logical_step (s : Option (List Nat) × List (List Nat × Nat)) (f : Fragment) :
    Option (List Nat) × List (List Nat × Nat) :=
  let acc : Option (List Nat) :=
    if f.beg then some f.string else s.1.map (fun t => t ++ f.string)
  if f.end_ then
    (none, match acc with
           | some t => s.2 ++ [(t, f.string_delim)]
           | none => s.2)
  else (acc, s.2)

/-- The logical tokens of a callback sequence. -/
def logical_tokens (fs : List Fragment) : List (List Nat × Nat) :=
  (fs.foldl logical_step (none, [])).2

/-- One byte of the delimiter-level reading of a stream: `s.1` is the run since the
last delimiter, `s.2` the runs closed so far, each with its delimiter. -/
def split_step (delims : List Nat) (s : List Nat × List (List Nat × Nat)) (b : Nat) :
    List Nat × List (List Nat × Nat) :=
  if b ∈ delims then ([], s.2 ++ [(s.1, b)]) else (s.1 ++ [b], s.2)

/-- The delimiter-closed runs of a stream, in order, each with its delimiter. -/
def closed_runs (delims : List Nat) (stream : List Nat) : List (List Nat × Nat) :=
  (stream.foldl (split_step delims) ([], [])).2

/-- The fragment a callback sees when the scan, in a state with the given `pos`, `beg`
and `end`, finds the token `tok` followed by the byte `d` (0 at the end of a chunk). -/
def mk_fragment (pos : Nat) (beg end_ : Bool) (tok : List Nat) (d : Nat) : Fragment :=
  { pos := if end_ then pos + 1 else pos, beg := end_ || beg, end_ := decide (d ≠ 0),
    string := tok, string_length := tok.length, string_delim := d }

/-- The run of the stream after its last delimiter byte. -/
def open_run (delims : List Nat) (stream : List Nat) : List Nat :=
  (stream.foldl (split_step delims) ([], [])).1

/-- One step of checking the flags of a callback sequence: `s.2` tells whether the
callback must have `beg` (it is the first one, or the one before had `end`), and `end`
must be set exactly when the fragment was closed by a delimiter byte. -/
def flag_step (s : Bool × Bool) (f : Fragment) : Bool × Bool :=
  (s.1 && (f.beg == s.2) && (f.end_ == (f.string_delim != 0)), f.end_)

/-- The flags of a callback sequence are consistent: `beg` is set exactly on the first
callback and on each callback that follows one with `end`, and `end` is set exactly on
the callbacks whose fragment a delimiter byte closed. -/
def flags_consistent (fs : List Fragment) : Bool :=
  (fs.foldl flag_step (true, true)).1

/-- The string, delimiter, `beg` and `end` of a callback. -/
def Fragment.shape (f : Fragment) : List Nat × Nat × Bool × Bool :=
  (f.string, f.string_delim, f.beg, f.end_)

/-- The callbacks expected for a stream delivered in one chunk: one with both flags for
each delimiter-closed run, then one with `beg` only for a non-empty unterminated run. -/
def whole_shapes (delims : List Nat) (stream : List Nat) : List (List Nat × Nat × Bool × Bool) :=
  (closed_runs delims stream).map (fun r => (r.1, r.2, true, true)) ++
    (if open_run delims stream = [] then [] else [(open_run delims stream, 0, true, false)])

/-! ## Character buffers -/

/-- Writing `bytes` into the array `buf` from index `off` on; a write past the end of
the array is dropped here (the callers flag it). -/
def poke (buf : List Nat) (off : Nat) (bytes : List Nat) : List Nat :=
  (buf.take off ++ bytes ++ buf.drop (off + bytes.length)).take buf.length

/-- The C string held by an array: the bytes before its first NUL. -/
def c_string (buf : List Nat) : List Nat :=
  buf.takeWhile (fun b => b != 0)

/-- The bytes `strncpy(dst, src, n)` writes: up to `n` bytes of the string `src`, then
NUL bytes up to `n` in all. -/
def strncpy_bytes (src : List Nat) (n : Nat) : List Nat :=
  (c_string src).take n ++ List.replicate (n - (c_string src).length) 0

/-- The test `strncmp(a, b, n) == 0`. -/
def strncmp_eq (a b : List Nat) (n : Nat) : Bool :=
  (c_string a).take n == (c_string b).take n

/-- Arithmetic of `size_t`: the modulus of a 64-bit platform. -/
def SIZE_MOD : Nat := 18446744073709551616

/-- Subtraction of `size_t` values. -/
def size_sub (a b : Nat) : Nat :=
  (a + SIZE_MOD - b % SIZE_MOD) % SIZE_MOD

/-! ## The package-name collector -/

/-- The `struct stream_foreign_pkgs_t`: `pkg` is the array of `NAME_MAX` bytes and
`list` the names added so far. `overrun` is not a field of the C struct: it records
that a write fell outside `pkg`, which is undefined behaviour in C. -/
structure stream_foreign_pkgs_t where
  pkg : List Nat
  length : Nat
  list : List (List Nat)
  overrun : Bool

/-- The callback `stream_parser_foreign_pkgs_callback`; `alpm_list_add` appends to the
end of the list and `strdup` copies the C string in `pkg`. -/
def stream_parser_foreign_pkgs_callback (st : stream_t stream_foreign_pkgs_t) :
    stream_foreign_pkgs_t :=
  let sfp := st.data
  let sfp := if st.beg then { sfp with length := 0 } else sfp
  let sfp := { sfp with
    pkg := poke sfp.pkg sfp.length (strncpy_bytes st.string st.string_length)
    overrun := sfp.overrun || decide (NAME_MAX < sfp.length + st.string_length) }
  let sfp := { sfp with length := sfp.length + st.string_length }
  if st.end_ then
    let sfp := { sfp with
      pkg := poke sfp.pkg sfp.length [0]
      overrun := sfp.overrun || decide (NAME_MAX ≤ sfp.length) }
    { sfp with list := sfp.list ++ [c_string sfp.pkg] }
  else sfp

/-- The handler `foreign_packages_stream_handler` on the list `list`; `pkg0` is what the
uninitialised array `sfp.pkg` holds at entry. Returns the final collector state, whose
`list` the handler stores back. -/
def foreign_packages_stream_handler (fd : List (List Nat)) (pkg0 : List Nat)
    (list : List (List Nat)) : stream_foreign_pkgs_t :=
  (stream_parser_call stream_parser_foreign_pkgs_callback fd
    { stream_parser_init
        ({ pkg := pkg0, length := 0, list := list, overrun := false } :
          stream_foreign_pkgs_t) with
      delims := some [CR, LF] }).data

/-! ## The configuration path extractor -/

/-- What `curr_path`, `curr_maxsize`, `curr_length` and `curr_path_key` point at; they
are switched together. `none` stands for the NULL pointers. -/
inductive path_slot where
  | root
  | db
deriving DecidableEq, Repr

/-- The `struct stream_pacman_config_paths_t`. -/
structure stream_pacman_config_paths_t where
  root_path : List Nat
  root_path_maxsize : Nat
  root_path_length : Nat
  db_path : List Nat
  db_path_maxsize : Nat
  db_path_length : Nat
  curr : Option path_slot
  skip : Bool
  root_path_key : List Nat
  db_path_key : List Nat
deriving DecidableEq, Repr

/-- The array `pst->curr_path`. -/
def stream_pacman_config_paths_t.curr_path (pst : stream_pacman_config_paths_t)
    (w : path_slot) : List Nat :=
  match w with
  | .root => pst.root_path
  | .db => pst.db_path

/-- The value `*pst->curr_maxsize`. -/
def stream_pacman_config_paths_t.curr_maxsize (pst : stream_pacman_config_paths_t)
    (w : path_slot) : Nat :=
  match w with
  | .root => pst.root_path_maxsize
  | .db => pst.db_path_maxsize

/-- The value `*pst->curr_length`. -/
def stream_pacman_config_paths_t.curr_length (pst : stream_pacman_config_paths_t)
    (w : path_slot) : Nat :=
  match w with
  | .root => pst.root_path_length
  | .db => pst.db_path_length

/-- The string `pst->curr_path_key`. -/
def stream_pacman_config_paths_t.curr_path_key (pst : stream_pacman_config_paths_t)
    (w : path_slot) : List Nat :=
  match w with
  | .root => pst.root_path_key
  | .db => pst.db_path_key

/-- An assignment to `*pst->curr_length`. -/
def stream_pacman_config_paths_t.set_curr_length (pst : stream_pacman_config_paths_t)
    (w : path_slot) (n : Nat) : stream_pacman_config_paths_t :=
  match w with
  | .root => { pst with root_path_length := n }
  | .db => { pst with db_path_length := n }

/-- A write into the array `pst->curr_path`. -/
def stream_pacman_config_paths_t.poke_curr_path (pst : stream_pacman_config_paths_t)
    (w : path_slot) (off : Nat) (bytes : List Nat) : stream_pacman_config_paths_t :=
  match w with
  | .root => { pst with root_path := poke pst.root_path off bytes }
  | .db => { pst with db_path := poke pst.db_path off bytes }

/-- The state `stream_parser_pacman_config_paths_init` leaves, from the two arrays and
their capacities. -/
def stream_parser_pacman_config_paths_init (root_path : List Nat) (root_path_maxsize : Nat)
    (db_path : List Nat) (db_path_maxsize : Nat) : stream_pacman_config_paths_t :=
  { root_path := root_path, root_path_maxsize := root_path_maxsize, root_path_length := 0,
    db_path := db_path, db_path_maxsize := db_path_maxsize, db_path_length := 0,
    curr := some .root, skip := false,
    root_path_key := PACMAN_ROOT_PATH_KEY, db_path_key := PACMAN_DB_PATH_KEY }

/-- The number of bytes the loop over `trimend` leaves of the first `n` bytes of `buf`:
it steps back over trailing spaces. -/
def trimend_length (buf : List Nat) (n : Nat) : Nat :=
  ((buf.take n).reverse.dropWhile (fun b => b == SP)).length

/-- The copy part of the callback (from `trimstart = st->string` to the update of
`*pst->curr_length`): on a first fragment the length is reset and leading spaces are
skipped, the length to copy is clamped to the room left, and the bytes are copied
behind what the array holds. The sum `*pst->curr_length + len` is below the `size_t`
modulus for every fragment the tokenizer hands over, and is taken in the naturals. -/
def config_copy (beg : Bool) (string : List Nat) (string_length : Nat) (w : path_slot)
    (pst : stream_pacman_config_paths_t) : stream_pacman_config_paths_t :=
  let lead := if beg then (string.takeWhile (fun b => b == SP)).length else 0
  let pst := if beg then pst.set_curr_length w 0 else pst
  let trimstart := string.drop lead
  let len := if beg then size_sub string_length lead else string_length
  let len :=
    if pst.curr_length w + len ≥ pst.curr_maxsize w then
      if pst.curr_length w < size_sub (pst.curr_maxsize w) 1 then
        size_sub (size_sub (pst.curr_maxsize w) (pst.curr_length w)) 1
      else 0
    else len
  let pst := pst.poke_curr_path w (pst.curr_length w) (strncpy_bytes trimstart len)
  pst.set_curr_length w (pst.curr_length w + len)

/-- The part of the callback under `if (st->end)`: trailing spaces are cut, an empty
token sets `skip`, a key token (even position) is compared with the wanted key, and a
value token (odd position) is terminated and the slot switched. -/
def config_end (pos : Nat) (w : path_slot) (pst : stream_pacman_config_paths_t) :
    stream_pacman_config_paths_t :=
  let trimend := trimend_length (pst.curr_path w) (pst.curr_length w)
  if trimend = 0 then { pst with skip := true }
  else
    let pst := pst.set_curr_length w trimend
    if pos % 2 = 0 then
      if pst.curr_length w ≠ (pst.curr_path_key w).length
          ∨ !(strncmp_eq (pst.curr_path_key w) (pst.curr_path w) (pst.curr_length w)) then
        { pst with skip := true }
      else pst
    else
      let pst := pst.poke_curr_path w (pst.curr_length w) [0]
      match w with
      | .root => { pst with curr := some .db }
      | .db => { pst with curr := none }

/-- The callback `stream_parser_pacman_config_paths_callback`. -/
def stream_parser_pacman_config_paths_callback
    (st : stream_t stream_pacman_config_paths_t) : stream_pacman_config_paths_t :=
  let pst := st.data
  match pst.curr with
  | none => pst
  | some w =>
    if pst.skip then
      if st.end_ ∧ st.pos % 2 = 1 then { pst with skip := false } else pst
    else
      let pst := config_copy st.beg st.string st.string_length w pst
      if st.end_ then config_end st.pos w pst else pst

/-- The handler `pacman_config_paths_stream_handler`: `root_path` and `db_path` are the
caller's arrays and `root_cap`, `db_cap` what `*root_path_length` and `*db_path_length`
hold at entry. The final state carries the arrays and the two lengths stored back. -/
def pacman_config_paths_stream_handler (fd : List (List Nat)) (root_path : List Nat)
    (root_cap : Nat) (db_path : List Nat) (db_cap : Nat) : stream_pacman_config_paths_t :=
  (stream_parser_call stream_parser_pacman_config_paths_callback fd
    { stream_parser_init
        (stream_parser_pacman_config_paths_init root_path root_cap db_path db_cap) with
      delims := some [COLON, CR, LF] }).data

/-- The constant `PATH_MAX` of `<limits.h>` (4096 on Linux). -/
def PATH_MAX : Nat := 4096

/-- The startup check of `main` on the extracted lengths: `true` when `main` goes on,
`false` when it returns `EXIT_FAILURE` (the status of the subprocess apart). -/
def main_accepts_paths (pst : stream_pacman_config_paths_t) : Bool :=
  !(pst.root_path_length == 0 || pst.db_path_length == 0)

/-! ## The diagnostic correlator -/

/-- One `fprintf` call of the correlator: the package-name line on the standard output,
the file-name line on the error output, or text on the error output. -/
inductive Out where
  | pkgname (colors : Bool) (name : List Nat)
  | filename (name : List Nat)
  | text (bytes : List Nat)
deriving DecidableEq, Repr

/-- The escape sequence that starts blue text. -/
def COLOR_BLUE : List Nat := [27, 91, 48, 59, 51, 52, 109]

/-- The escape sequence that ends coloured text. -/
def COLOR_OFF : List Nat := [27, 91, 48, 109]

/-- The bytes a call writes to the standard output. -/
def Out.stdout_bytes : Out → List Nat
  | .pkgname colors name =>
    if colors then COLOR_BLUE ++ name ++ COLOR_OFF ++ [LF] else name ++ [LF]
  | .filename _ => []
  | .text _ => []

/-- How the child process ends: the program (or the child itself, after a failed
`execvp`) calls `exit(code)`, or a signal kills it. -/
inductive child_end where
  | exited (code : Int)
  | signaled (sig : Nat)
deriving DecidableEq, Repr

/-- The wait status `waitpid` stores, in the encoding of Linux: the low eight bits of the
exit code in bits 8 to 15, or the signal number in the low seven bits. -/
def wait_status : child_end → Nat
  | .exited code => (code % 256).toNat * 256
  | .signaled sig => sig % 128

/-- The macro `WIFEXITED`. -/
def WIFEXITED (wstatus : Nat) : Bool := wstatus % 128 == 0

/-- The macro `WEXITSTATUS`. -/
def WEXITSTATUS (wstatus : Nat) : Nat := (wstatus / 256) % 256

/-- What `stream_exec` returns in the parent, from the outcome of the system calls:
whether the two `pipe` calls and `fork` succeed, whether `execvp` succeeds in the child,
how the program ends when it does, and whether `waitpid` succeeds. A child whose
`execvp` fails calls `exit(-1)`. -/
def stream_exec (pipe_stdout_ok pipe_stderr_ok fork_ok exec_ok : Bool)
    (program : child_end) (waitpid_ok : Bool) : Int :=
  if !pipe_stdout_ok || !pipe_stderr_ok then -1
  else if !fork_ok then -1
  else
    let child : child_end := if exec_ok then program else .exited (-1)
    if !waitpid_ok then -1
    else
      let wstatus := wait_status child
      if WIFEXITED wstatus then (WEXITSTATUS wstatus : Int) else -1

/-- What `stat` finds for a linker candidate. -/
inductive stat_result where
  | fails (errno : Nat)
  | not_regular_exec
  | regular_exec
deriving DecidableEq, Repr

/-- A directory entry that passed `ld_filter`, with the outcome of `stat` on it and the
value `stream_exec` returns for its `--verify` run. -/
structure ld_candidate where
  d_name : List Nat
  stat : stat_result
  verify : Int
deriving DecidableEq, Repr

/-- The path `snprintf(ld_bin_path, ld_bin_path_length, "%s/%s", LIB_DIR, d_name)`. -/
def ld_path (ld_bin_path_length : Nat) (d_name : List Nat) : List Nat :=
  ([47, 108, 105, 98] ++ [47] ++ d_name).take (ld_bin_path_length - 1)

/-- The `for` loop of `ld_bin_finder` from entry `i` on: returns `last_error`, the
string in `ld_bin_path` and the number of `--verify` subprocesses run. -/
def ld_bin_finder_loop (ld_bin_path_length : Nat) :
    List ld_candidate → Nat → List Nat → Nat → Nat × List Nat × Nat
  | [], last_error, ld_bin_path, runs => (last_error, ld_bin_path, runs)
  | c :: cs, _, _, runs =>
    let ld_bin_path := ld_path ld_bin_path_length c.d_name
    match c.stat with
    | .fails errno => ld_bin_finder_loop ld_bin_path_length cs errno ld_bin_path runs
    | .not_regular_exec => ld_bin_finder_loop ld_bin_path_length cs 1 ld_bin_path runs
    | .regular_exec =>
      if c.verify = 0 ∨ c.verify = 2 then (0, ld_bin_path, runs + 1)
      else ld_bin_finder_loop ld_bin_path_length cs 0 ld_bin_path (runs + 1)

/-- The function `ld_bin_finder`: `scandir` gives the sorted candidates, or fails with
an `errno`. Returns the status, the string in `ld_bin_path` (`ld_bin_path0` at entry)
and the number of subprocesses run. -/
def ld_bin_finder (scandir : Except Nat (List ld_candidate)) (ld_bin_path0 : List Nat)
    (ld_bin_path_length : Nat) : Nat × List Nat × Nat :=
  match scandir with
  | .error errno => (errno, ld_bin_path0, 0)
  | .ok list =>
    if list.length ≤ 0 then (1, ld_bin_path0, 0)
    else ld_bin_finder_loop ld_bin_path_length list 0 ld_bin_path0 0

/-! ## Specification vocabulary -/

/-- The stream state a callback sees for the fragment `f` with callback data `d`. -/
def Fragment.view {σ : Type} (f : Fragment) (d : σ) : stream_t σ :=
  { maxsize := BUFFER_SIZE, length := 0, delims := none, pos := f.pos, beg := f.beg,
    end_ := f.end_, string := f.string, string_length := f.string_length,
    string_delim := f.string_delim, data := d }

/-- Every delimiter-free run of the stream, closed or not, is shorter than `n`. -/
def runs_below (n : Nat) (delims : List Nat) (stream : List Nat) : Prop :=
  (∀ r ∈ closed_runs delims stream, r.1.length < n) ∧ (open_run delims stream).length < n

/-- The stream of a list of lines: each line followed by a single LF. -/
def lines_stream (lines : List (List Nat)) : List Nat :=
  (lines.map (fun l => l ++ [LF])).flatten

/-- A field of a configuration line: no colon, line end or NUL, and shorter than `cap`. -/
def config_field (cap : Nat) (x : List Nat) : Prop :=
  (∀ b ∈ x, b ≠ COLON ∧ b ≠ CR ∧ b ≠ LF ∧ b ≠ 0) ∧ x.length < cap

instance config_field_decidable (cap : Nat) (x : List Nat) :
    Decidable (config_field cap x) := by
  unfold config_field
  infer_instance

/-! ## Vocabulary for the position counter, the round trip and the bounds -/

/-- The bytes a consumer rebuilds from the callbacks: each fragment followed by its
delimiter, when that is not the sentinel 0. -/
def rebuild (fs : List Fragment) : List Nat :=
  (fs.map (fun f => f.string ++ (if f.string_delim = 0 then [] else [f.string_delim]))).flatten

/-- The inner `for` loop of `stream_parser` with the cursor as an index into the buffer:
`buffer` is the whole array (the chunk, the NUL stored at `buffer[length]`, and whatever
older reads left behind it) and `i` the offset of `st->string`. Returns the state and the
cursor offsets of the iterations made, the one that breaks included. -/
def stream_parser_scan_at {σ : Type} (callback : stream_t σ → σ) :
    Nat → stream_t σ → List Nat → Nat → stream_t σ × List Nat
  | 0, st, _, _ => (st, [])
  | fuel + 1, st, buffer, i =>
    let len := strcspn (buffer.drop i) (st.delims.getD [])
    let st1 := { st with string_length := len }
    if len = 0 ∧ buffer.getD (i + len) 0 = 0 then (st1, [i])
    else
      let st2 := { st1 with string_delim := buffer.getD (i + len) 0,
                            string := (buffer.drop i).take len }
      let st3 := if st2.end_ then { st2 with pos := st2.pos + 1, beg := true, end_ := false }
                 else st2
      let st4 := if st3.string_delim ≠ 0 then { st3 with end_ := true } else st3
      let st5 := { st4 with data := callback st4 }
      let st6 := { st5 with beg := false }
      if st6.string_delim = 0 then (st6, [i])
      else
        ((stream_parser_scan_at callback fuel st6 buffer (i + len + 1)).1,
          i :: (stream_parser_scan_at callback fuel st6 buffer (i + len + 1)).2)

instance runs_below_decidable (n : Nat) (delims stream : List Nat) :
    Decidable (runs_below n delims stream) := by
  unfold runs_below
  infer_instance

/-! # Theorems -/

/-! ## Reasoning principle for `stream_parser` -/

theorem strcspn_split (cur delims : List Nat) (h0 : 0 ∉ cur) :
    ∃ tok rest, cur = tok ++ rest ∧ strcspn cur delims = tok.length ∧
      (∀ b ∈ tok, b ∉ delims) ∧ 0 ∉ tok ∧ 0 ∉ rest ∧
      (rest = [] ∨ ∃ d r, rest = d :: r ∧ d ∈ delims ∧ d ≠ 0) := by
  refine ⟨cur.takeWhile (fun b => b != 0 && !(delims.contains b)),
    cur.dropWhile (fun b => b != 0 && !(delims.contains b)),
    (List.takeWhile_append_dropWhile _ _).symm, rfl, ?_, ?_, ?_, ?_⟩
  · intro b hb
    have := List.mem_takeWhile_imp hb
    simp only [Bool.and_eq_true, bne_iff_ne, Bool.not_eq_true', List.contains_eq_any_beq,
      List.any_eq_false, beq_iff_eq] at this
    intro hmem
    exact this.2 b hmem rfl
  · intro h
    exact h0 ((List.takeWhile_sublist _).mem h)
  · intro h
    exact h0 ((List.dropWhile_sublist _).mem h)
  · cases hr : cur.dropWhile (fun b => b != 0 && !(delims.contains b)) with
    | nil => exact Or.inl rfl
    | cons d r =>
      right
      refine ⟨d, r, rfl, ?_, ?_⟩
      · have := List.head_dropWhile_not (fun b => b != 0 && !(delims.contains b)) cur
          (by rw [hr]; simp)
        simp only [hr, List.head_cons] at this
        have hd : d ∈ cur := (List.dropWhile_sublist (fun b => b != 0 && !(delims.contains b))).mem (by rw [hr]; simp)
        have hd0 : d ≠ 0 := fun h => h0 (h ▸ hd)
        simpa [hd0] using this
      · intro h
        have hd : d ∈ cur := (List.dropWhile_sublist (fun b => b != 0 && !(delims.contains b))).mem (by rw [hr]; simp)
        exact h0 (h ▸ hd)

/-- The invariant rule for the inner loop: a relation `R` between the tokenizer flags,
the callback data and the bytes consumed so far that is kept by a delimiter-closed
fragment (`hclose`) and by a fragment cut by the end of the chunk (`hopen`) holds after
the scan of the rest of a chunk. `Q` is a property of the bytes at the cursor known
whenever the scan starts in the middle of a token. -/
theorem stream_parser_scan_rule {σ : Type} (cb : stream_t σ → σ) (g : Fragment → σ → σ)
    (hcb : ∀ st, cb st = g st.fragment st.data) (delims : List Nat)
    (R : Nat → Bool → Bool → σ → List Nat → Prop) (Q : List Nat → Prop)
    (total : List Nat)
    (hclose : ∀ pos beg end_ s pre tok d rest, R pos beg end_ s pre →
      (∀ b ∈ tok, b ∉ delims) → 0 ∉ tok → d ∈ delims → d ≠ 0 →
      (beg = false → end_ = false → Q (tok ++ d :: rest)) →
      (∃ suf, pre ++ tok ++ [d] ++ suf = total) →
      R (if end_ then pos + 1 else pos) false true
        (g (mk_fragment pos beg end_ tok d) s) (pre ++ tok ++ [d]))
    (hopen : ∀ pos beg end_ s pre tok, R pos beg end_ s pre →
      (∀ b ∈ tok, b ∉ delims) → 0 ∉ tok → tok ≠ [] →
      (beg = false → end_ = false → Q tok) →
      (∃ suf, pre ++ tok ++ suf = total) →
      R (if end_ then pos + 1 else pos) false false
        (g (mk_fragment pos beg end_ tok 0) s) (pre ++ tok)) :
    ∀ (fuel : Nat) (cur : List Nat) (st : stream_t σ) (pre : List Nat),
      cur.length < fuel → 0 ∉ cur → st.delims = some delims →
      R st.pos st.beg st.end_ st.data pre →
      (st.beg = false → st.end_ = false → Q cur) →
      (∃ suf, pre ++ cur ++ suf = total) →
      (stream_parser_scan cb fuel st cur).delims = some delims ∧
      R (stream_parser_scan cb fuel st cur).pos (stream_parser_scan cb fuel st cur).beg
        (stream_parser_scan cb fuel st cur).end_ (stream_parser_scan cb fuel st cur).data
        (pre ++ cur) := by
  intro fuel
  induction fuel with
  | zero => intro cur st pre h; omega
  | succ n ih =>
    intro cur st pre hlen h0 hd hR hQ hpfx
    obtain ⟨tok, rest, hcur, hlenTok, htok, htok0, hrest0, hrest⟩ := strcspn_split cur delims h0
    rcases hrest with hnil | ⟨d, r, hr, hdmem, hd0⟩
    · subst hnil
      simp only [List.append_nil] at hcur
      subst hcur
      by_cases hempty : cur = []
      · subst hempty
        simp [stream_parser_scan, strcspn, hd, hR]
      · have hpos : cur.length ≠ 0 := by
          intro h; exact hempty (List.length_eq_zero.mp h)
        have hget : cur.getD cur.length 0 = 0 := by simp [List.getD]
        have hop := hopen st.pos st.beg st.end_ st.data pre cur hR htok htok0 hempty hQ hpfx
        simp only [stream_parser_scan, hd, Option.getD_some, hlenTok, hpos, false_and,
          if_false, hget]
        cases hend : st.end_ <;>
          simp [hcb, stream_t.fragment, mk_fragment, hend, hd] at hop ⊢ <;> exact hop
    · subst hr
      subst hcur
      have hget : (tok ++ d :: r).getD tok.length 0 = d := by
        rw [List.getD_eq_getElem?_getD, List.getElem?_append_right (le_refl _)]
        simp
      have hcl := hclose st.pos st.beg st.end_ st.data pre tok d r hR htok htok0 hdmem hd0 hQ
        (by obtain ⟨suf, hs⟩ := hpfx; exact ⟨r ++ suf, by simpa using hs⟩)
      have hdrop : (tok ++ d :: r).drop (tok.length + 1) = r := by
        rw [show tok ++ d :: r = (tok ++ [d]) ++ r by simp]
        rw [List.drop_append_of_le_length (by simp)]
        simp
      have htake : (tok ++ d :: r).take tok.length = tok := by simp
      have hrlen : r.length < n := by simp at hlen; omega
      have hr0 : 0 ∉ r := fun h => hrest0 (List.mem_cons_of_mem _ h)
      have key : ∀ st6 : stream_t σ, st6.delims = some delims →
          R st6.pos st6.beg st6.end_ st6.data (pre ++ tok ++ [d]) → st6.end_ = true →
          (stream_parser_scan cb n st6 r).delims = some delims ∧
          R (stream_parser_scan cb n st6 r).pos (stream_parser_scan cb n st6 r).beg
            (stream_parser_scan cb n st6 r).end_ (stream_parser_scan cb n st6 r).data
            (pre ++ (tok ++ d :: r)) := by
        intro st6 h1 h2 h3
        have := ih r st6 (pre ++ tok ++ [d]) hrlen hr0 h1 h2 (by intro _ h; simp [h3] at h)
          (by obtain ⟨suf, hs⟩ := hpfx; exact ⟨suf, by simpa using hs⟩)
        simpa using this
      simp only [stream_parser_scan, hd, Option.getD_some, hlenTok, hget, hd0, and_false,
        if_false, hdrop, htake, ne_eq, not_false_eq_true, if_true]
      cases hend : st.end_
      · simp only [Bool.false_eq_true, if_false, hd0, not_false_eq_true, if_true]
        apply key
        · simp [hd]
        · simpa [hcb, stream_t.fragment, mk_fragment, hend, hd0] using hcl
        · simp
      · simp only [if_true, hd0, not_false_eq_true]
        apply key
        · simp [hd]
        · simpa [hcb, stream_t.fragment, mk_fragment, hend, hd0] using hcl
        · simp

/-- The invariant rule for the read loop: over non-empty NUL-free chunks, `R` holds of
the whole stream after the loop. `Q` has to hold of every chunk but the first. -/
theorem stream_parser_read_rule {σ : Type} (cb : stream_t σ → σ) (g : Fragment → σ → σ)
    (hcb : ∀ st, cb st = g st.fragment st.data) (delims : List Nat)
    (R : Nat → Bool → Bool → σ → List Nat → Prop) (Q : List Nat → Prop)
    (total : List Nat)
    (hclose : ∀ pos beg end_ s pre tok d rest, R pos beg end_ s pre →
      (∀ b ∈ tok, b ∉ delims) → 0 ∉ tok → d ∈ delims → d ≠ 0 →
      (beg = false → end_ = false → Q (tok ++ d :: rest)) →
      (∃ suf, pre ++ tok ++ [d] ++ suf = total) →
      R (if end_ then pos + 1 else pos) false true
        (g (mk_fragment pos beg end_ tok d) s) (pre ++ tok ++ [d]))
    (hopen : ∀ pos beg end_ s pre tok, R pos beg end_ s pre →
      (∀ b ∈ tok, b ∉ delims) → 0 ∉ tok → tok ≠ [] →
      (beg = false → end_ = false → Q tok) →
      (∃ suf, pre ++ tok ++ suf = total) →
      R (if end_ then pos + 1 else pos) false false
        (g (mk_fragment pos beg end_ tok 0) s) (pre ++ tok)) :
    ∀ (fd : List (List Nat)) (st : stream_t σ) (pre : List Nat),
      (∀ c ∈ fd, c ≠ []) → (∀ c ∈ fd, 0 ∉ c) → (∀ c ∈ fd.tail, Q c) →
      (st.beg = false → st.end_ = false → ∀ c ∈ fd.head?, Q c) →
      st.delims = some delims → R st.pos st.beg st.end_ st.data pre →
      (∃ suf, pre ++ fd.flatten ++ suf = total) →
      (stream_parser_read cb fd st).delims = some delims ∧
      R (stream_parser_read cb fd st).pos (stream_parser_read cb fd st).beg
        (stream_parser_read cb fd st).end_ (stream_parser_read cb fd st).data
        (pre ++ fd.flatten) := by
  intro fd
  induction fd with
  | nil =>
    intro st pre _ _ _ _ hd hR _
    simpa [stream_parser_read, hd] using hR
  | cons c fd ih =>
    intro st pre hne h0 hQ hQ0 hd hR hpfx
    have hc : c.length ≠ 0 := fun h =>
      hne c (List.mem_cons_self _ _) (List.length_eq_zero.mp h)
    have hs := stream_parser_scan_rule cb g hcb delims R Q total hclose hopen (c.length + 1) c
      { st with length := c.length } pre (Nat.lt_succ_self _) (h0 c (List.mem_cons_self _ _))
      hd hR (fun hb he => hQ0 hb he c (by simp))
      (by obtain ⟨suf, hs⟩ := hpfx; exact ⟨fd.flatten ++ suf, by simpa using hs⟩)
    have := ih (stream_parser_scan cb (c.length + 1) { st with length := c.length } c)
      (pre ++ c) (fun x hx => hne x (List.mem_cons_of_mem _ hx))
      (fun x hx => h0 x (List.mem_cons_of_mem _ hx))
      (fun x hx => hQ x (by
        cases fd with
        | nil => simp at hx
        | cons y ys => simp only [List.tail_cons] at hx ⊢; exact List.mem_cons_of_mem _ hx))
      (fun _ _ x hx => hQ x (by
        cases fd with
        | nil => simp at hx
        | cons y ys =>
          simp only [List.head?_cons, Option.mem_def, Option.some.injEq] at hx
          simp [hx]))
      hs.1 hs.2 (by obtain ⟨suf, hs⟩ := hpfx; exact ⟨suf, by simpa using hs⟩)
    simpa [stream_parser_read, hc, List.append_assoc] using this

/-- The invariant rule for `stream_parser`, called with delimiters `delims` on a fresh
`stream_t`: `R` holds of the final callback data and the whole stream. -/
theorem stream_parser_rule {σ : Type} (cb : stream_t σ → σ) (g : Fragment → σ → σ)
    (hcb : ∀ st, cb st = g st.fragment st.data) (delims : List Nat)
    (R : Nat → Bool → Bool → σ → List Nat → Prop) (Q : List Nat → Prop)
    (total : List Nat)
    (hclose : ∀ pos beg end_ s pre tok d rest, R pos beg end_ s pre →
      (∀ b ∈ tok, b ∉ delims) → 0 ∉ tok → d ∈ delims → d ≠ 0 →
      (beg = false → end_ = false → Q (tok ++ d :: rest)) →
      (∃ suf, pre ++ tok ++ [d] ++ suf = total) →
      R (if end_ then pos + 1 else pos) false true
        (g (mk_fragment pos beg end_ tok d) s) (pre ++ tok ++ [d]))
    (hopen : ∀ pos beg end_ s pre tok, R pos beg end_ s pre →
      (∀ b ∈ tok, b ∉ delims) → 0 ∉ tok → tok ≠ [] →
      (beg = false → end_ = false → Q tok) →
      (∃ suf, pre ++ tok ++ suf = total) →
      R (if end_ then pos + 1 else pos) false false
        (g (mk_fragment pos beg end_ tok 0) s) (pre ++ tok))
    (fd : List (List Nat)) (s0 : σ)
    (hne : ∀ c ∈ fd, c ≠ []) (h0 : ∀ c ∈ fd, 0 ∉ c) (hQ : ∀ c ∈ fd.tail, Q c)
    (htotal : total = fd.flatten) (hR : R 0 true false s0 []) :
    ∃ pos beg end_,
      R pos beg end_
        (stream_parser_call cb fd { stream_parser_init s0 with delims := some delims }).data
        fd.flatten := by
  have := stream_parser_read_rule cb g hcb delims R Q total hclose hopen fd
    { maxsize := BUFFER_SIZE, length := 0, delims := some delims, pos := 0, beg := true,
      end_ := false, string := [], string_length := 0, string_delim := 0, data := s0 }
    [] hne h0 hQ (by intro h; simp at h) rfl hR ⟨[], by simp [htotal]⟩
  have heq : stream_parser_call cb fd { stream_parser_init s0 with delims := some delims } =
      stream_parser_read cb fd
        { maxsize := BUFFER_SIZE, length := 0, delims := some delims, pos := 0, beg := true,
          end_ := false, string := [], string_length := 0, string_delim := 0, data := s0 } := by
    simp [stream_parser_call, stream_parser_init]
  rw [heq]
  exact ⟨_, _, _, this.2⟩

/-! ## Logical tokens do not depend on the chunking -/

theorem record_callback_eq (st : stream_t (List Fragment)) :
    record_callback st = (fun f d => d ++ [f]) st.fragment st.data := rfl

theorem split_step_foldl_free (delims tok : List Nat) (h : ∀ b ∈ tok, b ∉ delims)
    (s : List Nat × List (List Nat × Nat)) :
    tok.foldl (split_step delims) s = (s.1 ++ tok, s.2) := by
  induction tok generalizing s with
  | nil => simp
  | cons b bs ih =>
    have hb : b ∉ delims := h b (List.mem_cons_self _ _)
    rw [List.foldl_cons, ih (fun x hx => h x (List.mem_cons_of_mem _ hx))]
    simp [split_step, hb]

/-- The logical tokens of the callbacks are the delimiter-closed runs of the stream,
for every chunking. -/
theorem logical_tokens_fragments (delims : List Nat) (fd : List (List Nat))
    (hne : ∀ c ∈ fd, c ≠ []) (h0 : ∀ c ∈ fd, 0 ∉ c) :
    logical_tokens (fragments delims fd) = closed_runs delims fd.flatten := by
  obtain ⟨pos, beg, end_, h⟩ := stream_parser_rule record_callback (fun f d => d ++ [f])
    record_callback_eq delims
    (fun _ beg end_ frs pre =>
      (frs.foldl logical_step (none, [])).2 = (pre.foldl (split_step delims) ([], [])).2 ∧
      (if beg || end_ then (pre.foldl (split_step delims) ([], [])).1 = []
       else (frs.foldl logical_step (none, [])).1 =
              some (pre.foldl (split_step delims) ([], [])).1))
    (fun _ => True) fd.flatten
    (by
      intro pos beg end_ frs pre tok d rest hR htok _ hd hd0 _ _
      obtain ⟨h1, h2⟩ := hR
      simp only [List.foldl_append, List.foldl_cons, List.foldl_nil,
        split_step_foldl_free delims tok htok]
      cases hb : (beg || end_)
      · have hb1 : (end_ || beg) = false := by rw [Bool.or_comm]; exact hb
        simp only [hb, Bool.false_eq_true, if_false] at h2
        simp [logical_step, mk_fragment, hb1, hd0, h2, h1, split_step, hd]
      · have hb1 : (end_ || beg) = true := by rw [Bool.or_comm]; exact hb
        simp only [hb, if_true] at h2
        simp [logical_step, mk_fragment, hb1, hd0, h2, h1, split_step, hd])
    (by
      intro pos beg end_ frs pre tok hR htok _ _ _ _
      obtain ⟨h1, h2⟩ := hR
      simp only [List.foldl_append, List.foldl_cons, List.foldl_nil,
        split_step_foldl_free delims tok htok]
      cases hb : (beg || end_)
      · have hb1 : (end_ || beg) = false := by rw [Bool.or_comm]; exact hb
        simp only [hb, Bool.false_eq_true, if_false] at h2
        simp [logical_step, mk_fragment, hb1, h2, h1]
      · have hb1 : (end_ || beg) = true := by rw [Bool.or_comm]; exact hb
        simp only [hb, if_true] at h2
        simp [logical_step, mk_fragment, hb1, h2, h1])
    fd [] hne h0 (fun _ _ => trivial) rfl (by simp)
  exact h.1

/-- C1. For every NUL-free stream, every delimiter set and every splitting of the stream
into non-empty chunks, the logical tokens `stream_parser` hands to its callback are
those it hands over when the whole stream comes as a single chunk. -/
theorem stream_parser_chunking_invariant (delims : List Nat) (fd : List (List Nat))
    (hne : ∀ c ∈ fd, c ≠ []) (h0 : ∀ c ∈ fd, 0 ∉ c) :
    logical_tokens (fragments delims fd) =
      logical_tokens (fragments delims [fd.flatten]) := by
  by_cases hfl : fd.flatten = []
  · have hfd : fd = [] := by
      cases fd with
      | nil => rfl
      | cons c cs =>
        exfalso
        apply hne c (List.mem_cons_self _ _)
        have := List.append_eq_nil.mp (by simpa using hfl : c ++ cs.flatten = [])
        exact this.1
    subst hfd
    rfl
  · rw [logical_tokens_fragments delims fd hne h0,
      logical_tokens_fragments delims [fd.flatten] (by simpa using hfl)
        (by
          intro c hc
          simp only [List.mem_singleton] at hc
          subst hc
          simp only [List.mem_flatten, not_exists, not_and]
          intro l hl
          exact h0 l hl)]
    simp

/-- C1 at a concrete input: `ab`, `:c`, `:` against `ab:c:`. -/
theorem stream_parser_chunking_invariant_witness :
    ((∀ c ∈ [[97, 98], [58, 99], [58]], c ≠ []) ∧
      (∀ c ∈ [[97, 98], [58, 99], [58]], 0 ∉ c)) ∧
    logical_tokens (fragments [58] [[97, 98], [58, 99], [58]]) =
      logical_tokens (fragments [58] [[[97, 98], [58, 99], [58]].flatten]) :=
  ⟨⟨by decide, by decide⟩,
   stream_parser_chunking_invariant [58] [[97, 98], [58, 99], [58]] (by decide) (by decide)⟩

/-! ## Empty tokens and the flags -/

/-- One iteration of the inner loop, with the flag updates folded together. -/
theorem stream_parser_scan_succ {σ : Type} (cb : stream_t σ → σ) (fuel : Nat)
    (st : stream_t σ) (cur : List Nat) :
    stream_parser_scan cb (fuel + 1) st cur =
      if strcspn cur (st.delims.getD []) = 0 ∧
          cur.getD (strcspn cur (st.delims.getD [])) 0 = 0 then
        { st with string_length := strcspn cur (st.delims.getD []) }
      else if cur.getD (strcspn cur (st.delims.getD [])) 0 = 0 then
        { st with
          string_length := strcspn cur (st.delims.getD [])
          string_delim := cur.getD (strcspn cur (st.delims.getD [])) 0
          string := cur.take (strcspn cur (st.delims.getD []))
          pos := if st.end_ then st.pos + 1 else st.pos
          beg := false
          end_ := false
          data := cb { st with
            string_length := strcspn cur (st.delims.getD [])
            string_delim := cur.getD (strcspn cur (st.delims.getD [])) 0
            string := cur.take (strcspn cur (st.delims.getD []))
            pos := if st.end_ then st.pos + 1 else st.pos
            beg := st.end_ || st.beg
            end_ := false } }
      else
        stream_parser_scan cb fuel
          { st with
            string_length := strcspn cur (st.delims.getD [])
            string_delim := cur.getD (strcspn cur (st.delims.getD [])) 0
            string := cur.take (strcspn cur (st.delims.getD []))
            pos := if st.end_ then st.pos + 1 else st.pos
            beg := false
            end_ := true
            data := cb { st with
              string_length := strcspn cur (st.delims.getD [])
              string_delim := cur.getD (strcspn cur (st.delims.getD [])) 0
              string := cur.take (strcspn cur (st.delims.getD []))
              pos := if st.end_ then st.pos + 1 else st.pos
              beg := st.end_ || st.beg
              end_ := true } }
          (cur.drop (strcspn cur (st.delims.getD []) + 1)) := by
  generalize hlen : strcspn cur (st.delims.getD []) = len
  generalize hd : cur.getD len 0 = d
  simp only [stream_parser_scan, hlen, hd]
  by_cases h1 : len = 0 ∧ d = 0
  · simp [h1]
  · by_cases h2 : d = 0
    · cases he : st.end_ <;> simp [h1, h2, he]
    · cases he : st.end_ <;> simp [h2, he]

theorem scan_empty_closed (fuel : Nat) :
    ∀ (st : stream_t (List Fragment)) (cur : List Nat),
      (∀ f ∈ st.data, f.string_length = 0 → f.string_delim ≠ 0 ∧ f.end_ = true) →
      ∀ f ∈ (stream_parser_scan record_callback fuel st cur).data,
        f.string_length = 0 → f.string_delim ≠ 0 ∧ f.end_ = true := by
  induction fuel with
  | zero => intro st cur h; simpa [stream_parser_scan] using h
  | succ n ih =>
    intro st cur h
    rw [stream_parser_scan_succ]
    generalize strcspn cur (st.delims.getD []) = len
    generalize hd : cur.getD len 0 = d
    split
    · simpa using h
    · rename_i hc
      split
      · rename_i hd0
        intro f hf
        simp only [record_callback, stream_t.fragment, List.mem_append,
          List.mem_singleton] at hf
        rcases hf with hf | hf
        · exact h f hf
        · subst hf
          intro hl
          exact absurd ⟨hl, hd0⟩ hc
      · rename_i hd0
        apply ih
        intro f hf
        simp only [record_callback, stream_t.fragment, List.mem_append,
          List.mem_singleton] at hf
        rcases hf with hf | hf
        · exact h f hf
        · subst hf
          intro _
          exact ⟨hd0, rfl⟩

theorem read_empty_closed (fd : List (List Nat)) :
    ∀ (st : stream_t (List Fragment)),
      (∀ f ∈ st.data, f.string_length = 0 → f.string_delim ≠ 0 ∧ f.end_ = true) →
      ∀ f ∈ (stream_parser_read record_callback fd st).data,
        f.string_length = 0 → f.string_delim ≠ 0 ∧ f.end_ = true := by
  induction fd with
  | nil => intro st h; simpa [stream_parser_read] using h
  | cons c fd ih =>
    intro st h
    simp only [stream_parser_read]
    split
    · simpa using h
    · apply ih
      apply scan_empty_closed
      simpa using h

/-- C9, as the code has it: `stream_parser` hands over a zero-length token only when a
delimiter byte closed it (then `end` is set); the empty rest of a chunk is suppressed. -/
theorem stream_parser_empty_token_closed (delims : List Nat) (fd : List (List Nat))
    (f : Fragment) (hf : f ∈ fragments delims fd) (hlen : f.string_length = 0) :
    f.string_delim ≠ 0 ∧ f.end_ = true := by
  unfold fragments stream_parser_call at hf
  exact read_empty_closed fd _ (by simp [stream_parser_init]) f hf hlen

/-- C9 fails as stated: between the two colons of `a::b`, between CR and LF, and for a
delimiter at offset zero of the buffer, the callback gets a zero-length token. -/
theorem stream_parser_empty_token_counterexample :
    fragments [COLON] [[97, COLON, COLON, 98]] =
      [⟨0, true, true, [97], 1, COLON⟩, ⟨1, true, true, [], 0, COLON⟩,
       ⟨2, true, false, [98], 1, 0⟩] ∧
    fragments [CR, LF] [[97, CR, LF]] =
      [⟨0, true, true, [97], 1, CR⟩, ⟨1, true, true, [], 0, LF⟩] ∧
    fragments [COLON] [[COLON, 97]] =
      [⟨0, true, true, [], 0, COLON⟩, ⟨1, true, false, [97], 1, 0⟩] := by
  decide

/-- The amended C9 at the empty token between the colons of `a::b`. -/
theorem stream_parser_empty_token_closed_witness :
    (⟨1, true, true, [], 0, COLON⟩ : Fragment) ∈ fragments [COLON] [[97, COLON, COLON, 98]] ∧
    (⟨1, true, true, [], 0, COLON⟩ : Fragment).string_length = 0 ∧
    ((⟨1, true, true, [], 0, COLON⟩ : Fragment).string_delim ≠ 0 ∧
      (⟨1, true, true, [], 0, COLON⟩ : Fragment).end_ = true) :=
  ⟨by decide, rfl,
   stream_parser_empty_token_closed [COLON] [[97, COLON, COLON, 98]]
     ⟨1, true, true, [], 0, COLON⟩ (by decide) rfl⟩

theorem flags_consistent_fragments (delims : List Nat) (fd : List (List Nat))
    (hne : ∀ c ∈ fd, c ≠ []) (h0 : ∀ c ∈ fd, 0 ∉ c) :
    flags_consistent (fragments delims fd) = true := by
  obtain ⟨pos, beg, end_, h⟩ := stream_parser_rule record_callback (fun f d => d ++ [f])
    record_callback_eq delims
    (fun _ beg end_ frs _ => frs.foldl flag_step (true, true) = (true, beg || end_))
    (fun _ => True) fd.flatten
    (by
      intro pos beg end_ frs pre tok d rest hR _ _ _ hd0 _ _
      simp only [List.foldl_append, List.foldl_cons, List.foldl_nil, hR]
      cases beg <;> cases end_ <;> simp [flag_step, mk_fragment, hd0])
    (by
      intro pos beg end_ frs pre tok hR _ _ _ _ _
      simp only [List.foldl_append, List.foldl_cons, List.foldl_nil, hR]
      cases beg <;> cases end_ <;> simp [flag_step, mk_fragment])
    fd [] hne h0 (fun _ _ => trivial) rfl (by simp)
  unfold flags_consistent fragments
  rw [h]

theorem whole_chunk_shapes (delims : List Nat) (stream : List Nat) (hne : stream ≠ [])
    (h0 : 0 ∉ stream) :
    (fragments delims [stream]).map Fragment.shape = whole_shapes delims stream := by
  obtain ⟨pos, beg, end_, h⟩ := stream_parser_rule record_callback (fun f d => d ++ [f])
    record_callback_eq delims
    (fun _ beg end_ frs pre =>
      frs.map Fragment.shape =
        (closed_runs delims pre).map (fun r => (r.1, r.2, true, true)) ++
          (if beg || end_ then [] else [(open_run delims pre, 0, true, false)]) ∧
      ((beg || end_) = true → open_run delims pre = []) ∧
      ((beg || end_) = false → open_run delims pre ≠ []))
    (fun _ => False) [stream].flatten
    (by
      intro pos beg end_ frs pre tok d rest hR htok _ hd hd0 hQ _
      obtain ⟨h1, h2, h3⟩ := hR
      have hb : (beg || end_) = true := by
        cases beg <;> cases end_ <;> simp at hQ ⊢
      have hb1 : (end_ || beg) = true := by rw [Bool.or_comm]; exact hb
      have ho := h2 hb
      simp only [hb, if_true, List.append_nil] at h1
      simp only [open_run] at ho
      simp [closed_runs, open_run, List.foldl_append, split_step_foldl_free delims tok htok,
        split_step, hd, ho, Fragment.shape, mk_fragment, hb1, hd0, h1])
    (by
      intro pos beg end_ frs pre tok hR htok _ hne hQ _
      obtain ⟨h1, h2, h3⟩ := hR
      have hb : (beg || end_) = true := by
        cases beg <;> cases end_ <;> simp at hQ ⊢
      have hb1 : (end_ || beg) = true := by rw [Bool.or_comm]; exact hb
      have ho := h2 hb
      simp only [hb, if_true, List.append_nil] at h1
      simp only [open_run] at ho
      simp [closed_runs, open_run, List.foldl_append, split_step_foldl_free delims tok htok,
        ho, Fragment.shape, mk_fragment, hb1, h1, hne])
    [stream] [] (by simpa using hne) (by simpa using h0) (by simp) rfl
    (by simp [closed_runs, open_run])
  simp only [List.flatten_cons, List.flatten_nil, List.append_nil] at h
  obtain ⟨h1, h2, h3⟩ := h
  unfold whole_shapes
  unfold fragments
  rw [h1]
  cases hb : (beg || end_)
  · simp [h3 hb]
  · simp [h2 hb]

/-- C10, as the code has it: for every NUL-free stream in non-empty chunks, `beg` is set
exactly on the first callback and on each callback after one with `end`, `end` is set
exactly on the callbacks whose fragment a delimiter byte closed, the fragments from a
`beg` to the next `end` join to the delimiter-closed runs of the stream, and with the
stream in one chunk each delimiter-closed run gets exactly one callback with both flags
while a non-empty unterminated last run gets one callback with `beg` only. -/
theorem stream_parser_run_flags (delims : List Nat) (fd : List (List Nat))
    (hne : ∀ c ∈ fd, c ≠ []) (h0 : ∀ c ∈ fd, 0 ∉ c) :
    flags_consistent (fragments delims fd) = true ∧
    logical_tokens (fragments delims fd) = closed_runs delims fd.flatten ∧
    (fragments delims [fd.flatten]).map Fragment.shape = whole_shapes delims fd.flatten := by
  refine ⟨flags_consistent_fragments delims fd hne h0,
    logical_tokens_fragments delims fd hne h0, ?_⟩
  by_cases hfl : fd.flatten = []
  · rw [hfl]; rfl
  · apply whole_chunk_shapes delims fd.flatten hfl
    simp only [List.mem_flatten, not_exists, not_and]
    intro l hl
    exact h0 l hl

/-- The amended C10 at the chunks `ab`, `:c`, `:`. -/
theorem stream_parser_run_flags_witness :
    ((∀ c ∈ [[97, 98], [58, 99], [58]], c ≠ []) ∧
      (∀ c ∈ [[97, 98], [58, 99], [58]], 0 ∉ c)) ∧
    (flags_consistent (fragments [58] [[97, 98], [58, 99], [58]]) = true ∧
     logical_tokens (fragments [58] [[97, 98], [58, 99], [58]]) =
       closed_runs [58] [[97, 98], [58, 99], [58]].flatten ∧
     (fragments [58] [[[97, 98], [58, 99], [58]].flatten]).map Fragment.shape =
       whole_shapes [58] [[97, 98], [58, 99], [58]].flatten) :=
  ⟨⟨by decide, by decide⟩,
   stream_parser_run_flags [58] [[97, 98], [58, 99], [58]] (by decide) (by decide)⟩

/-- C10 fails as stated: the run `abc` of a stream without delimiter lies in one chunk
and gets one callback on which `end` is not set, and the run `ab` of the chunks `ab`,
`:` lies in one chunk and gets two callbacks, neither with both flags. -/
theorem stream_parser_run_flags_counterexample :
    fragments [COLON] [[97, 98, 99]] = [⟨0, true, false, [97, 98, 99], 3, 0⟩] ∧
    fragments [COLON] [[97, 98], [COLON]] =
      [⟨0, true, false, [97, 98], 2, 0⟩, ⟨0, false, true, [], 0, COLON⟩] := by
  decide

/-! ## Runs of a stream -/

theorem closed_runs_append_free (delims pre tok : List Nat) (h : ∀ b ∈ tok, b ∉ delims) :
    closed_runs delims (pre ++ tok) = closed_runs delims pre := by
  simp [closed_runs, List.foldl_append, split_step_foldl_free delims tok h]

theorem open_run_append_free (delims pre tok : List Nat) (h : ∀ b ∈ tok, b ∉ delims) :
    open_run delims (pre ++ tok) = open_run delims pre ++ tok := by
  simp [open_run, List.foldl_append, split_step_foldl_free delims tok h]

theorem closed_runs_append_delim (delims pre : List Nat) (d : Nat) (h : d ∈ delims) :
    closed_runs delims (pre ++ [d]) = closed_runs delims pre ++ [(open_run delims pre, d)] := by
  simp [closed_runs, open_run, List.foldl_append, split_step, h]

theorem open_run_append_delim (delims pre : List Nat) (d : Nat) (h : d ∈ delims) :
    open_run delims (pre ++ [d]) = [] := by
  simp [open_run, List.foldl_append, split_step, h]

theorem closed_runs_nil (delims : List Nat) : closed_runs delims [] = [] := rfl

theorem open_run_nil (delims : List Nat) : open_run delims [] = [] := rfl

theorem runs_below_snoc (n : Nat) (delims pre : List Nat) (b : Nat)
    (h : runs_below n delims (pre ++ [b])) : runs_below n delims pre := by
  by_cases hb : b ∈ delims
  · obtain ⟨h1, _⟩ := h
    rw [closed_runs_append_delim delims pre b hb] at h1
    refine ⟨fun r hr => h1 r (List.mem_append_left _ hr), ?_⟩
    exact h1 (open_run delims pre, b) (by simp)
  · obtain ⟨h1, h2⟩ := h
    have hfree : ∀ x ∈ [b], x ∉ delims := by simpa using hb
    rw [closed_runs_append_free delims pre [b] hfree] at h1
    rw [open_run_append_free delims pre [b] hfree] at h2
    refine ⟨h1, ?_⟩
    simp at h2
    omega

theorem runs_below_of_append (n : Nat) (delims pre : List Nat) :
    ∀ suf : List Nat, runs_below n delims (pre ++ suf) → runs_below n delims pre := by
  intro suf
  induction suf using List.reverseRecOn with
  | nil => intro h; simpa using h
  | append_singleton suf b ih =>
    intro h
    apply ih
    apply runs_below_snoc n delims (pre ++ suf) b
    simpa [List.append_assoc] using h

/-! ## Writes into a buffer -/

theorem poke_eq (buf : List Nat) (off : Nat) (bytes : List Nat)
    (h : off + bytes.length ≤ buf.length) :
    poke buf off bytes = buf.take off ++ bytes ++ buf.drop (off + bytes.length) := by
  unfold poke
  apply List.take_of_length_le
  simp
  omega

theorem poke_length (buf : List Nat) (off : Nat) (bytes : List Nat) :
    (poke buf off bytes).length = buf.length := by
  unfold poke
  simp
  omega

theorem poke_take (buf : List Nat) (off : Nat) (bytes : List Nat)
    (h : off + bytes.length ≤ buf.length) :
    (poke buf off bytes).take (off + bytes.length) = buf.take off ++ bytes := by
  rw [poke_eq buf off bytes h]
  have h1 : (buf.take off ++ bytes).length = off + bytes.length := by
    simp; omega
  rw [List.take_append_of_le_length (by omega)]
  rw [← h1, List.take_length]

theorem c_string_of_nul_free (s : List Nat) (h : 0 ∉ s) : c_string s = s := by
  unfold c_string
  rw [List.takeWhile_eq_self_iff]
  intro x hx
  simp only [bne_iff_ne, ne_eq]
  intro hx0
  exact h (hx0 ▸ hx)

theorem c_string_append_nul (s t : List Nat) (h : 0 ∉ s) : c_string (s ++ 0 :: t) = s := by
  unfold c_string
  rw [List.takeWhile_append_of_pos]
  · simp
  · intro x hx
    simp only [bne_iff_ne, ne_eq]
    intro hx0
    exact h (hx0 ▸ hx)

theorem strncpy_bytes_whole (s : List Nat) (h : 0 ∉ s) : strncpy_bytes s s.length = s := by
  simp [strncpy_bytes, c_string_of_nul_free s h]

/-! ## The package-name collector -/

theorem foreign_callback_eq (st : stream_t stream_foreign_pkgs_t) :
    stream_parser_foreign_pkgs_callback st =
      (fun f d => stream_parser_foreign_pkgs_callback (f.view d)) st.fragment st.data := rfl

/-- The effect of the collector callback on a fragment `tok` that extends the run `run`
held in the first `L` bytes of `pkg`. -/
theorem foreign_callback_step (sfp : stream_foreign_pkgs_t) (pos : Nat) (b e : Bool)
    (tok run : List Nat) (d : Nat) (hlen : sfp.pkg.length = NAME_MAX)
    (hov : sfp.overrun = false)
    (hL : (if b then 0 else sfp.length) = run.length)
    (hrun : sfp.pkg.take run.length = run) (hr0 : 0 ∉ run) (ht0 : 0 ∉ tok)
    (hbound : (run ++ tok).length < NAME_MAX) :
    let r := stream_parser_foreign_pkgs_callback
      (Fragment.view ⟨pos, b, e, tok, tok.length, d⟩ sfp)
    r.pkg.length = NAME_MAX ∧ r.overrun = false ∧ r.length = (run ++ tok).length ∧
      r.pkg.take (run ++ tok).length = run ++ tok ∧
      r.list = if e then sfp.list ++ [run ++ tok] else sfp.list := by
  have hb1 : run.length + tok.length < NAME_MAX := by simpa using hbound
  have hle : run.length + tok.length ≤ sfp.pkg.length := by omega
  have hpk : (poke sfp.pkg run.length tok).take (run.length + tok.length) = run ++ tok := by
    rw [poke_take _ _ _ hle, hrun]
  have hpl : (poke sfp.pkg run.length tok).length = NAME_MAX := by rw [poke_length, hlen]
  have hnot : ¬ NAME_MAX < run.length + tok.length := by omega
  have hnot2 : ¬ NAME_MAX ≤ run.length + tok.length := by omega
  have hstr : strncpy_bytes tok tok.length = tok := strncpy_bytes_whole tok ht0
  have hz : poke (poke sfp.pkg run.length tok) (run.length + tok.length) [0] =
      (run ++ tok) ++ 0 :: (poke sfp.pkg run.length tok).drop (run.length + tok.length + 1) := by
    rw [poke_eq _ _ _ (by simp [hpl]; omega), hpk]
    simp
  have hz0 : 0 ∉ run ++ tok := by
    simp only [List.mem_append, not_or]
    exact ⟨hr0, ht0⟩
  have hL' : (if b = true then
      ({ pkg := sfp.pkg, length := 0, list := sfp.list, overrun := sfp.overrun } :
        stream_foreign_pkgs_t) else sfp).length = run.length := by
    cases b <;> simpa using hL
  have hL2 : ∀ x : stream_foreign_pkgs_t, x = (if b = true then
      ({ pkg := sfp.pkg, length := 0, list := sfp.list, overrun := sfp.overrun } :
        stream_foreign_pkgs_t) else sfp) →
      x.length = run.length ∧ x.pkg = sfp.pkg ∧ x.list = sfp.list ∧ x.overrun = false := by
    intro x hx
    subst hx
    refine ⟨hL', ?_, ?_, ?_⟩ <;> cases b <;> simp [hov]
  simp only [stream_parser_foreign_pkgs_callback, Fragment.view]
  generalize hx : (if b = true then
      ({ pkg := sfp.pkg, length := 0, list := sfp.list, overrun := sfp.overrun } :
        stream_foreign_pkgs_t) else sfp) = x
  obtain ⟨hx1, hx2, hx3, hx4⟩ := hL2 x hx.symm
  cases e
  · simp only [Bool.false_eq_true, if_false, hx1, hx2, hx3, hx4, hstr, hpl, hpk,
      Bool.false_or, decide_eq_false_iff_not, List.length_append]
    exact ⟨trivial, hnot, trivial, trivial, trivial⟩
  · simp only [if_true, hx1, hx2, hx3, hx4, hstr, Bool.false_or, List.length_append]
    refine ⟨?_, ?_, trivial, ?_, ?_⟩
    · rw [poke_length, hpl]
    · simp only [Bool.or_eq_false_iff, decide_eq_false_iff_not]
      exact ⟨hnot, hnot2⟩
    · rw [hz, List.take_append_of_le_length (by simp)]
      rw [show run.length + tok.length = (run ++ tok).length by simp, List.take_length]
    · rw [hz, c_string_append_nul _ _ hz0]

/-- The names the collector appends are the delimiter-closed runs of the stream, and no
write leaves `pkg`, when every run is shorter than `NAME_MAX`. -/
theorem collector_closed_runs (fd : List (List Nat)) (pkg0 : List Nat)
    (list0 : List (List Nat)) (hne : ∀ c ∈ fd, c ≠ []) (h0 : ∀ c ∈ fd, 0 ∉ c)
    (hpkg : pkg0.length = NAME_MAX) (hruns : runs_below NAME_MAX [CR, LF] fd.flatten) :
    (foreign_packages_stream_handler fd pkg0 list0).list =
        list0 ++ (closed_runs [CR, LF] fd.flatten).map Prod.fst ∧
      (foreign_packages_stream_handler fd pkg0 list0).overrun = false := by
  obtain ⟨pos, beg, end_, h⟩ := stream_parser_rule stream_parser_foreign_pkgs_callback
    (fun f d => stream_parser_foreign_pkgs_callback (f.view d)) foreign_callback_eq [CR, LF]
    (fun _ beg end_ sfp pre =>
      sfp.pkg.length = NAME_MAX ∧ sfp.overrun = false ∧
      sfp.list = list0 ++ (closed_runs [CR, LF] pre).map Prod.fst ∧
      0 ∉ open_run [CR, LF] pre ∧
      (if beg || end_ then open_run [CR, LF] pre = []
       else sfp.length = (open_run [CR, LF] pre).length ∧
         sfp.pkg.take (open_run [CR, LF] pre).length = open_run [CR, LF] pre))
    (fun _ => True) fd.flatten
    (by
      intro pos beg end_ sfp pre tok d rest hR htok htok0 hd hd0 _ hpfx
      obtain ⟨h1, h2, h3, h4, h5⟩ := hR
      obtain ⟨suf, hsuf⟩ := hpfx
      have hrb := runs_below_of_append NAME_MAX [CR, LF] (pre ++ tok ++ [d]) suf
        (by rw [hsuf]; exact hruns)
      have hbound : (open_run [CR, LF] pre ++ tok).length < NAME_MAX := by
        have := hrb.1 (open_run [CR, LF] pre ++ tok, d) (by
          rw [closed_runs_append_delim _ _ _ hd, open_run_append_free _ _ _ htok]
          simp)
        exact this
      have hL : (if (end_ || beg) then 0 else sfp.length) = (open_run [CR, LF] pre).length := by
        cases beg <;> cases end_ <;> simp at h5 ⊢ <;> simp [h5]
      have hrun : sfp.pkg.take (open_run [CR, LF] pre).length = open_run [CR, LF] pre := by
        cases beg <;> cases end_ <;> simp at h5 ⊢ <;> simp [h5]
      have hstep := foreign_callback_step sfp (if end_ then pos + 1 else pos) (end_ || beg)
        true tok (open_run [CR, LF] pre) d h1 h2 hL hrun h4 htok0 hbound
      have hdec : decide (d ≠ 0) = true := by simpa using hd0
      simp only [mk_fragment, hdec]
      obtain ⟨s1, s2, s3, s4, s5⟩ := hstep
      refine ⟨s1, s2, ?_, ?_, ?_⟩
      · rw [s5, closed_runs_append_delim _ _ _ hd, open_run_append_free _ _ _ htok, h3,
          closed_runs_append_free _ _ _ htok]
        simp
      · rw [open_run_append_delim _ _ _ hd]; simp
      · rw [open_run_append_delim _ _ _ hd]; simp)
    (by
      intro pos beg end_ sfp pre tok hR htok htok0 _ _ hpfx
      obtain ⟨h1, h2, h3, h4, h5⟩ := hR
      obtain ⟨suf, hsuf⟩ := hpfx
      have hrb := runs_below_of_append NAME_MAX [CR, LF] (pre ++ tok) suf
        (by rw [hsuf]; exact hruns)
      have hbound : (open_run [CR, LF] pre ++ tok).length < NAME_MAX := by
        have := hrb.2
        rwa [open_run_append_free _ _ _ htok] at this
      have hL : (if (end_ || beg) then 0 else sfp.length) = (open_run [CR, LF] pre).length := by
        cases beg <;> cases end_ <;> simp at h5 ⊢ <;> simp [h5]
      have hrun : sfp.pkg.take (open_run [CR, LF] pre).length = open_run [CR, LF] pre := by
        cases beg <;> cases end_ <;> simp at h5 ⊢ <;> simp [h5]
      have hstep := foreign_callback_step sfp (if end_ then pos + 1 else pos) (end_ || beg)
        false tok (open_run [CR, LF] pre) 0 h1 h2 hL hrun h4 htok0 hbound
      have hdec : decide ((0 : Nat) ≠ 0) = false := by simp
      simp only [mk_fragment, hdec]
      obtain ⟨s1, s2, s3, s4, s5⟩ := hstep
      refine ⟨s1, s2, ?_, ?_, ?_⟩
      · rw [s5, closed_runs_append_free _ _ _ htok, h3]
        simp
      · rw [open_run_append_free _ _ _ htok]
        simp only [List.mem_append, not_or]
        exact ⟨h4, htok0⟩
      · rw [open_run_append_free _ _ _ htok]
        simp only [Bool.or_self, Bool.false_eq_true, if_false]
        exact ⟨s3, s4⟩)
    fd ({ pkg := pkg0, length := 0, list := list0, overrun := false } : stream_foreign_pkgs_t)
    hne h0 (fun _ _ => trivial) rfl
    (by simp [hpkg, closed_runs_nil, open_run_nil])
  obtain ⟨_, h2, h3, _, _⟩ := h
  exact ⟨h3, h2⟩

theorem lines_stream_snoc (lines : List (List Nat)) (l : List Nat) :
    lines_stream (lines ++ [l]) = lines_stream lines ++ l ++ [LF] := by
  simp [lines_stream]

theorem lines_stream_runs (delims : List Nat) (hLF : LF ∈ delims) (lines : List (List Nat))
    (hfree : ∀ l ∈ lines, ∀ b ∈ l, b ∉ delims) :
    closed_runs delims (lines_stream lines) = lines.map (fun l => (l, LF)) ∧
      open_run delims (lines_stream lines) = [] := by
  induction lines using List.reverseRecOn with
  | nil => exact ⟨rfl, rfl⟩
  | append_singleton ls l ih =>
    have hl : ∀ b ∈ l, b ∉ delims := hfree l (by simp)
    obtain ⟨ih1, ih2⟩ := ih (fun x hx => hfree x (List.mem_append_left _ hx))
    rw [lines_stream_snoc]
    constructor
    · rw [closed_runs_append_delim _ _ _ hLF, closed_runs_append_free _ _ _ hl,
        open_run_append_free _ _ _ hl, ih1, ih2]
      simp
    · rw [open_run_append_delim _ _ _ hLF]

/-- C4. For package names without CR, LF or NUL, each shorter than `NAME_MAX`, and every
splitting of the stream of the names, each followed by one LF, into non-empty chunks,
the collector started on the empty list yields exactly the names in order, and writes
only inside `pkg`. -/
theorem foreign_packages_collects_names (names : List (List Nat)) (fd : List (List Nat))
    (pkg0 : List Nat) (hpkg : pkg0.length = NAME_MAX)
    (hnames : ∀ n ∈ names, n.length < NAME_MAX ∧ CR ∉ n ∧ LF ∉ n ∧ 0 ∉ n)
    (hne : ∀ c ∈ fd, c ≠ []) (hfd : fd.flatten = lines_stream names) :
    (foreign_packages_stream_handler fd pkg0 []).list = names ∧
      (foreign_packages_stream_handler fd pkg0 []).overrun = false := by
  have hfree : ∀ l ∈ names, ∀ b ∈ l, b ∉ [CR, LF] := by
    intro l hl b hb hmem
    obtain ⟨_, h2, h3, _⟩ := hnames l hl
    simp only [List.mem_cons, List.mem_singleton, List.not_mem_nil, or_false] at hmem
    rcases hmem with h | h
    · exact h2 (h ▸ hb)
    · exact h3 (h ▸ hb)
  obtain ⟨hc, ho⟩ := lines_stream_runs [CR, LF] (by simp) names hfree
  have h0 : ∀ c ∈ fd, 0 ∉ c := by
    intro c hc0 hz
    have : 0 ∈ fd.flatten := List.mem_flatten.mpr ⟨c, hc0, hz⟩
    rw [hfd] at this
    simp only [lines_stream, List.mem_flatten, List.mem_map] at this
    obtain ⟨l, ⟨n, hn, hl⟩, hz⟩ := this
    subst hl
    simp only [List.mem_append, List.mem_singleton] at hz
    rcases hz with hz | hz
    · exact (hnames n hn).2.2.2 hz
    · simp [LF] at hz
  have hruns : runs_below NAME_MAX [CR, LF] fd.flatten := by
    rw [hfd]
    refine ⟨?_, ?_⟩
    · intro r hr
      rw [hc] at hr
      simp only [List.mem_map] at hr
      obtain ⟨n, hn, rfl⟩ := hr
      exact (hnames n hn).1
    · rw [ho]; simp [NAME_MAX]
  have := collector_closed_runs fd pkg0 [] hne h0 hpkg hruns
  rw [hfd, hc] at this
  have hm : List.map Prod.fst (List.map (fun l => (l, LF)) names) = names := by
    rw [List.map_map]
    exact List.map_id _
  rw [hm] at this
  simpa using this

/-- C4 at `foo`, `bar`, `baz`, with the stream cut inside `bar`. -/
theorem foreign_packages_collects_names_witness :
    ((List.replicate 255 0).length = NAME_MAX ∧
      (∀ n ∈ [[102, 111, 111], [98, 97, 114], [98, 97, 122]],
        n.length < NAME_MAX ∧ CR ∉ n ∧ LF ∉ n ∧ 0 ∉ n) ∧
      (∀ c ∈ [[102, 111, 111, 10, 98, 97], [114, 10, 98, 97, 122, 10]], c ≠ []) ∧
      [[102, 111, 111, 10, 98, 97], [114, 10, 98, 97, 122, 10]].flatten =
        lines_stream [[102, 111, 111], [98, 97, 114], [98, 97, 122]]) ∧
    ((foreign_packages_stream_handler
        [[102, 111, 111, 10, 98, 97], [114, 10, 98, 97, 122, 10]]
        (List.replicate 255 0) []).list = [[102, 111, 111], [98, 97, 114], [98, 97, 122]] ∧
      (foreign_packages_stream_handler
        [[102, 111, 111, 10, 98, 97], [114, 10, 98, 97, 122, 10]]
        (List.replicate 255 0) []).overrun = false) :=
  ⟨⟨List.length_replicate _ _, by decide, by decide, by decide⟩,
   foreign_packages_collects_names [[102, 111, 111], [98, 97, 114], [98, 97, 122]]
     [[102, 111, 111, 10, 98, 97], [114, 10, 98, 97, 122, 10]] (List.replicate 255 0)
     (List.length_replicate _ _) (by decide) (by decide) (by decide)⟩

/-! ## ld_bin_finder and stream_exec -/

/-- C7 at its failing input: the only candidate `ld-linux.so.2` is a regular executable
file whose `--verify` run exits with 1, no candidate is compatible, and `ld_bin_finder`
returns 0 with that candidate in `ld_bin_path`. -/
theorem ld_bin_finder_incompatible_returns_zero :
    ld_bin_finder
      (.ok [⟨[108, 100, 45, 108, 105, 110, 117, 120, 46, 115, 111, 46, 50], .regular_exec, 1⟩])
      [] PATH_MAX =
      (0, [47, 108, 105, 98, 47, 108, 100, 45, 108, 105, 110, 117, 120, 46, 115, 111, 46, 50],
        1) := by
  decide

/-- C8 at its failing input: when `execvp` fails in the child, the child calls `exit(-1)`
and the parent returns 255, the value it returns for a program that exits with 255. -/
theorem stream_exec_exec_failure_returns_255 (program : child_end) :
    stream_exec true true true false program true = 255 ∧
      stream_exec true true true true (.exited 255) true = 255 := by
  constructor
  · have h : stream_exec true true true false program true =
        stream_exec true true true true (.exited (-1)) true := rfl
    rw [h]
    decide
  · decide

/-! ## The configuration path extractor -/

/-- C3 at its failing input: on `Root:/` and `Foo:bar`, a dump without the `DB Path`
key, the key `Foo` is left in `db_path` with length 3 and both reported lengths are
non-zero, so the check of `main` lets the result through. -/
theorem config_paths_missing_db_path_accepted :
    (pacman_config_paths_stream_handler
        [[82, 111, 111, 116, 58, 47, 10, 70, 111, 111, 58, 98, 97, 114, 10]]
        (List.replicate 16 0) 16 (List.replicate 16 0) 16).root_path_length = 1 ∧
    (pacman_config_paths_stream_handler
        [[82, 111, 111, 116, 58, 47, 10, 70, 111, 111, 58, 98, 97, 114, 10]]
        (List.replicate 16 0) 16 (List.replicate 16 0) 16).db_path_length = 3 ∧
    main_accepts_paths (pacman_config_paths_stream_handler
        [[82, 111, 111, 116, 58, 47, 10, 70, 111, 111, 58, 98, 97, 114, 10]]
        (List.replicate 16 0) 16 (List.replicate 16 0) 16) = true := by
  decide

theorem rebuild_snoc (fs : List Fragment) (f : Fragment) :
    rebuild (fs ++ [f]) =
      rebuild fs ++ f.string ++ (if f.string_delim = 0 then [] else [f.string_delim]) := by
  simp [rebuild]

/-- C12. For every NUL-free stream in non-empty chunks and every delimiter set, the
fragments in callback order, each followed by its delimiter when that is not 0, join to
the stream. -/
theorem stream_parser_round_trip (delims : List Nat) (fd : List (List Nat))
    (hne : ∀ c ∈ fd, c ≠ []) (h0 : ∀ c ∈ fd, 0 ∉ c) :
    rebuild (fragments delims fd) = fd.flatten := by
  obtain ⟨pos, beg, end_, h⟩ := stream_parser_rule record_callback (fun f d => d ++ [f])
    record_callback_eq delims
    (fun _ _ _ frs pre => rebuild frs = pre)
    (fun _ => True) fd.flatten
    (by
      intro pos beg end_ frs pre tok d rest hR _ _ _ hd0 _ _
      rw [rebuild_snoc, hR]
      simp [mk_fragment, hd0])
    (by
      intro pos beg end_ frs pre tok hR _ _ _ _ _
      rw [rebuild_snoc, hR]
      simp [mk_fragment])
    fd [] hne h0 (fun _ _ => trivial) rfl (by simp [rebuild])
  exact h

/-- The delimiter-closed runs and the open run split the stream at its delimiter bytes. -/
theorem closed_runs_split (delims stream : List Nat) :
    ((closed_runs delims stream).map (fun r => r.1 ++ [r.2])).flatten ++
        open_run delims stream = stream ∧
      (∀ r ∈ closed_runs delims stream, (∀ b ∈ r.1, b ∉ delims) ∧ r.2 ∈ delims) ∧
      (∀ b ∈ open_run delims stream, b ∉ delims) ∧
      (closed_runs delims stream).length = stream.countP (fun b => decide (b ∈ delims)) := by
  induction stream using List.reverseRecOn with
  | nil => simp [closed_runs_nil, open_run_nil]
  | append_singleton bs b ih =>
    obtain ⟨i1, i2, i3, i4⟩ := ih
    by_cases hb : b ∈ delims
    · rw [closed_runs_append_delim _ _ _ hb, open_run_append_delim _ _ _ hb]
      refine ⟨?_, ?_, by simp, ?_⟩
      · simp only [List.map_append, List.map_cons, List.map_nil, List.flatten_append,
          List.flatten_cons, List.flatten_nil, List.append_nil]
        rw [← List.append_assoc, i1]
      · intro r hr
        rcases List.mem_append.mp hr with hr | hr
        · exact i2 r hr
        · simp only [List.mem_singleton] at hr
          subst hr
          exact ⟨i3, hb⟩
      · simp [List.countP_append, i4, hb]
    · have hfree : ∀ x ∈ [b], x ∉ delims := by simpa using hb
      rw [closed_runs_append_free _ _ _ hfree, open_run_append_free _ _ _ hfree]
      refine ⟨?_, i2, ?_, ?_⟩
      · rw [← List.append_assoc, i1]
      · intro x hx
        rcases List.mem_append.mp hx with hx | hx
        · exact i3 x hx
        · simp only [List.mem_singleton] at hx
          subst hx
          exact hb
      · simp [List.countP_append, i4, hb]

/-- C17. For every NUL-free stream whose runs are all shorter than `NAME_MAX`, in
non-empty chunks: the collector appends one entry per CR or LF byte, the entries are in
order the runs that these bytes close (empty between the bytes of a CR LF pair), and the
run after the last delimiter is not appended. -/
theorem collector_one_entry_per_delimiter (fd : List (List Nat)) (pkg0 : List Nat)
    (hne : ∀ c ∈ fd, c ≠ []) (h0 : ∀ c ∈ fd, 0 ∉ c)
    (hpkg : pkg0.length = NAME_MAX) (hruns : runs_below NAME_MAX [CR, LF] fd.flatten) :
    (foreign_packages_stream_handler fd pkg0 []).list =
        (closed_runs [CR, LF] fd.flatten).map Prod.fst ∧
      (foreign_packages_stream_handler fd pkg0 []).list.length =
        fd.flatten.countP (fun b => decide (b ∈ [CR, LF])) ∧
      ((closed_runs [CR, LF] fd.flatten).map (fun r => r.1 ++ [r.2])).flatten ++
        open_run [CR, LF] fd.flatten = fd.flatten ∧
      (∀ r ∈ closed_runs [CR, LF] fd.flatten, (∀ b ∈ r.1, b ∉ [CR, LF]) ∧ r.2 ∈ [CR, LF]) ∧
      (∀ b ∈ open_run [CR, LF] fd.flatten, b ∉ [CR, LF]) := by
  obtain ⟨h1, _⟩ := collector_closed_runs fd pkg0 [] hne h0 hpkg hruns
  obtain ⟨s1, s2, s3, s4⟩ := closed_runs_split [CR, LF] fd.flatten
  simp only [List.nil_append] at h1
  refine ⟨h1, ?_, s1, s2, s3⟩
  rw [h1, List.length_map, s4]

/-- C14. Once the db path is captured (`curr_path` is NULL), a callback leaves the whole
extractor state as it is, whatever the token. -/
theorem config_callback_done_unchanged (st : stream_t stream_pacman_config_paths_t)
    (h : st.data.curr = none) :
    stream_parser_pacman_config_paths_callback st = st.data := by
  unfold stream_parser_pacman_config_paths_callback
  simp [h]

/-! ## The extractor keeps inside its arrays -/

theorem strncpy_bytes_length (src : List Nat) (n : Nat) : (strncpy_bytes src n).length = n := by
  simp [strncpy_bytes]
  omega

theorem strcspn_append_nul (a b delims : List Nat) :
    strcspn (a ++ 0 :: b) delims = strcspn a delims := by
  unfold strcspn
  induction a with
  | nil => simp
  | cons x xs ih =>
    by_cases hx : (x != 0 && !(delims.contains x)) = true
    · simp only [List.cons_append, List.takeWhile_cons, hx, if_true, List.length_cons, ih]
    · simp only [List.cons_append, List.takeWhile_cons, hx, if_false]
      simp

theorem strcspn_le_length (s delims : List Nat) : strcspn s delims ≤ s.length :=
  (List.takeWhile_sublist _).length_le

theorem drop_append_nul (chunk stale : List Nat) (i : Nat) (hi : i ≤ chunk.length) :
    (chunk ++ 0 :: stale).drop i = chunk.drop i ++ 0 :: stale :=
  List.drop_append_of_le_length hi

theorem getD_append_nul (chunk stale : List Nat) (j : Nat) (hj : j ≤ chunk.length) :
    (chunk ++ 0 :: stale).getD j 0 = chunk.getD j 0 := by
  rw [List.getD_eq_getElem?_getD, List.getD_eq_getElem?_getD]
  by_cases h : j < chunk.length
  · rw [List.getElem?_append_left h]
  · have hj' : j = chunk.length := by omega
    subst hj'
    rw [List.getElem?_append_right (le_refl _)]
    simp

theorem getD_drop (s : List Nat) (i j : Nat) : (s.drop i).getD j 0 = s.getD (i + j) 0 := by
  rw [List.getD_eq_getElem?_getD, List.getD_eq_getElem?_getD, List.getElem?_drop]

/-- One iteration of the index form of the inner loop, with the flag updates folded
together. -/
theorem stream_parser_scan_at_succ {σ : Type} (cb : stream_t σ → σ) (fuel : Nat)
    (st : stream_t σ) (buffer : List Nat) (i : Nat) :
    stream_parser_scan_at cb (fuel + 1) st buffer i =
      if strcspn (buffer.drop i) (st.delims.getD []) = 0 ∧
          buffer.getD (i + strcspn (buffer.drop i) (st.delims.getD [])) 0 = 0 then
        ({ st with string_length := strcspn (buffer.drop i) (st.delims.getD []) }, [i])
      else if buffer.getD (i + strcspn (buffer.drop i) (st.delims.getD [])) 0 = 0 then
        ({ st with
          string_length := strcspn (buffer.drop i) (st.delims.getD [])
          string_delim := buffer.getD (i + strcspn (buffer.drop i) (st.delims.getD [])) 0
          string := (buffer.drop i).take (strcspn (buffer.drop i) (st.delims.getD []))
          pos := if st.end_ then st.pos + 1 else st.pos
          beg := false
          end_ := false
          data := cb { st with
            string_length := strcspn (buffer.drop i) (st.delims.getD [])
            string_delim := buffer.getD (i + strcspn (buffer.drop i) (st.delims.getD [])) 0
            string := (buffer.drop i).take (strcspn (buffer.drop i) (st.delims.getD []))
            pos := if st.end_ then st.pos + 1 else st.pos
            beg := st.end_ || st.beg
            end_ := false } }, [i])
      else
        ((stream_parser_scan_at cb fuel
          { st with
            string_length := strcspn (buffer.drop i) (st.delims.getD [])
            string_delim := buffer.getD (i + strcspn (buffer.drop i) (st.delims.getD [])) 0
            string := (buffer.drop i).take (strcspn (buffer.drop i) (st.delims.getD []))
            pos := if st.end_ then st.pos + 1 else st.pos
            beg := false
            end_ := true
            data := cb { st with
              string_length := strcspn (buffer.drop i) (st.delims.getD [])
              string_delim := buffer.getD (i + strcspn (buffer.drop i) (st.delims.getD [])) 0
              string := (buffer.drop i).take (strcspn (buffer.drop i) (st.delims.getD []))
              pos := if st.end_ then st.pos + 1 else st.pos
              beg := st.end_ || st.beg
              end_ := true } }
          buffer (i + strcspn (buffer.drop i) (st.delims.getD []) + 1)).1,
         i :: (stream_parser_scan_at cb fuel
          { st with
            string_length := strcspn (buffer.drop i) (st.delims.getD [])
            string_delim := buffer.getD (i + strcspn (buffer.drop i) (st.delims.getD [])) 0
            string := (buffer.drop i).take (strcspn (buffer.drop i) (st.delims.getD []))
            pos := if st.end_ then st.pos + 1 else st.pos
            beg := false
            end_ := true
            data := cb { st with
              string_length := strcspn (buffer.drop i) (st.delims.getD [])
              string_delim := buffer.getD (i + strcspn (buffer.drop i) (st.delims.getD [])) 0
              string := (buffer.drop i).take (strcspn (buffer.drop i) (st.delims.getD []))
              pos := if st.end_ then st.pos + 1 else st.pos
              beg := st.end_ || st.beg
              end_ := true } }
          buffer (i + strcspn (buffer.drop i) (st.delims.getD []) + 1)).2) := by
  generalize hlen : strcspn (buffer.drop i) (st.delims.getD []) = len
  generalize hd : buffer.getD (i + len) 0 = d
  simp only [stream_parser_scan_at, hlen, hd]
  by_cases h1 : len = 0 ∧ d = 0
  · simp [h1]
  · by_cases h2 : d = 0
    · cases he : st.end_ <;> simp [h1, h2, he]
    · cases he : st.end_ <;> simp [h2, he]

/-- The index form of the loop on a chunk of length `n` followed by its NUL: from a
cursor `i ≤ n` and with fuel for the rest of the chunk, it gives what the loop over the
rest of the chunk gives, every cursor stays at most `n` with its token and terminator
inside `buffer[0..n]`, at most `n + 1 - i` iterations are made, and more fuel changes
nothing. -/
theorem stream_parser_scan_at_spec {σ : Type} (cb : stream_t σ → σ)
    (chunk stale : List Nat) (fuel : Nat) :
    ∀ (st : stream_t σ) (i : Nat), i ≤ chunk.length → chunk.length + 1 ≤ fuel + i →
      (stream_parser_scan_at cb fuel st (chunk ++ 0 :: stale) i).1 =
          stream_parser_scan cb fuel st (chunk.drop i) ∧
        (∀ c ∈ (stream_parser_scan_at cb fuel st (chunk ++ 0 :: stale) i).2,
          c ≤ chunk.length ∧
            c + strcspn ((chunk ++ 0 :: stale).drop c) (st.delims.getD []) ≤ chunk.length) ∧
        (stream_parser_scan_at cb fuel st (chunk ++ 0 :: stale) i).2.length + i ≤
          chunk.length + 1 ∧
        stream_parser_scan_at cb (fuel + 1) st (chunk ++ 0 :: stale) i =
          stream_parser_scan_at cb fuel st (chunk ++ 0 :: stale) i := by
  induction fuel with
  | zero => intro st i hi hf; omega
  | succ k ih =>
    intro st i hi hf
    have hlen : strcspn ((chunk ++ 0 :: stale).drop i) (st.delims.getD []) =
        strcspn (chunk.drop i) (st.delims.getD []) := by
      rw [drop_append_nul chunk stale i hi, strcspn_append_nul]
    have hle : strcspn (chunk.drop i) (st.delims.getD []) ≤ chunk.length - i := by
      have := strcspn_le_length (chunk.drop i) (st.delims.getD [])
      simpa using this
    have hget : (chunk ++ 0 :: stale).getD (i + strcspn (chunk.drop i) (st.delims.getD [])) 0 =
        (chunk.drop i).getD (strcspn (chunk.drop i) (st.delims.getD [])) 0 := by
      rw [getD_append_nul chunk stale _ (by omega), getD_drop]
    have htake : ((chunk ++ 0 :: stale).drop i).take
          (strcspn (chunk.drop i) (st.delims.getD [])) =
        (chunk.drop i).take (strcspn (chunk.drop i) (st.delims.getD [])) := by
      rw [drop_append_nul chunk stale i hi, List.take_append_of_le_length (by simpa using hle)]
    have hnz : (chunk.drop i).getD (strcspn (chunk.drop i) (st.delims.getD [])) 0 ≠ 0 →
        i + strcspn (chunk.drop i) (st.delims.getD []) + 1 ≤ chunk.length := by
      intro hne
      by_contra hcon
      apply hne
      rw [List.getD_eq_getElem?_getD, List.getElem?_eq_none (by simp; omega)]
      rfl
    rw [stream_parser_scan_at_succ cb (k + 1), stream_parser_scan_at_succ cb k,
      stream_parser_scan_succ, hlen, hget, htake]
    generalize hL : strcspn (chunk.drop i) (st.delims.getD []) = len at *
    generalize hD : (chunk.drop i).getD len 0 = d at *
    by_cases h1 : len = 0 ∧ d = 0
    · simp only [if_pos h1]
      refine ⟨trivial, ?_, by simp only [List.length_singleton]; omega, trivial⟩
      intro c hc
      simp only [List.mem_singleton] at hc
      subst hc
      rw [hlen]; omega
    · by_cases h2 : d = 0
      · simp only [if_neg h1, if_pos h2]
        refine ⟨trivial, ?_, by simp only [List.length_singleton]; omega, trivial⟩
        intro c hc
        simp only [List.mem_singleton] at hc
        subst hc
        rw [hlen]; omega
      · simp only [if_neg h1, if_neg h2]
        have hstep := hnz h2
        obtain ⟨i1, i2, i3, i4⟩ := ih
          { st with
            string_length := len
            string_delim := d
            string := (chunk.drop i).take len
            pos := if st.end_ then st.pos + 1 else st.pos
            beg := false
            end_ := true
            data := cb { st with
              string_length := len
              string_delim := d
              string := (chunk.drop i).take len
              pos := if st.end_ then st.pos + 1 else st.pos
              beg := st.end_ || st.beg
              end_ := true } }
          (i + len + 1) hstep (by omega)
        refine ⟨?_, ?_, ?_, ?_⟩
        · have hdd : (chunk.drop i).drop (len + 1) = chunk.drop (i + len + 1) := by
            rw [List.drop_drop]
            exact congrArg (fun m => List.drop m chunk) (by omega)
          rw [i1, hdd]
        · intro c hc
          simp only [List.mem_cons] at hc
          rcases hc with hc | hc
          · subst hc
            rw [hlen]; omega
          · exact i2 c hc
        · simp only [List.length_cons]
          omega
        · rw [i4]

/-- C18. For every chunk of length `n` with `1 ≤ n ≤ maxsize - 1`, whatever its bytes,
the bytes behind its NUL and the delimiters: the inner loop of `stream_parser` ends
within `n + 1` iterations (more fuel changes nothing), its cursor never passes `n`, each
token with its terminator lies in `buffer[0..n]`, the index form of the loop gives what
the loop over the chunk gives, and `n` is below `maxsize`. -/
theorem stream_parser_scan_stays_in_chunk {σ : Type} (cb : stream_t σ → σ)
    (st : stream_t σ) (chunk stale : List Nat) (maxsize fuel : Nat)
    (h1 : 1 ≤ chunk.length) (h2 : chunk.length ≤ maxsize - 1)
    (hfuel : chunk.length + 1 ≤ fuel) :
    stream_parser_scan_at cb fuel st (chunk ++ 0 :: stale) 0 =
        stream_parser_scan_at cb (chunk.length + 1) st (chunk ++ 0 :: stale) 0 ∧
      (stream_parser_scan_at cb (chunk.length + 1) st (chunk ++ 0 :: stale) 0).1 =
        stream_parser_scan cb (chunk.length + 1) st chunk ∧
      (stream_parser_scan_at cb (chunk.length + 1) st (chunk ++ 0 :: stale) 0).2.length ≤
        chunk.length + 1 ∧
      (∀ c ∈ (stream_parser_scan_at cb (chunk.length + 1) st (chunk ++ 0 :: stale) 0).2,
        c ≤ chunk.length ∧
          c + strcspn ((chunk ++ 0 :: stale).drop c) (st.delims.getD []) ≤ chunk.length) ∧
      chunk.length < maxsize := by
  obtain ⟨s1, s2, s3, _⟩ := stream_parser_scan_at_spec cb chunk stale (chunk.length + 1) st 0
    (Nat.zero_le _) (by omega)
  refine ⟨?_, by simpa using s1, by simpa using s3, s2, by omega⟩
  obtain ⟨k, rfl⟩ : ∃ k, fuel = chunk.length + 1 + k := ⟨fuel - (chunk.length + 1), by omega⟩
  clear hfuel
  induction k with
  | zero => rfl
  | succ k ih =>
    rw [← ih]
    exact (stream_parser_scan_at_spec cb chunk stale (chunk.length + 1 + k) st 0
      (Nat.zero_le _) (by omega)).2.2.2

/-- C12 at the chunks `ab`, `:c`, `:`. -/
theorem stream_parser_round_trip_witness :
    ((∀ c ∈ [[97, 98], [58, 99], [58]], c ≠ []) ∧
      (∀ c ∈ [[97, 98], [58, 99], [58]], 0 ∉ c)) ∧
    rebuild (fragments [58] [[97, 98], [58, 99], [58]]) =
      [[97, 98], [58, 99], [58]].flatten :=
  ⟨⟨by decide, by decide⟩,
   stream_parser_round_trip [58] [[97, 98], [58, 99], [58]] (by decide) (by decide)⟩

/-- C14 at a key token handed to a state in which both paths are captured. -/
theorem config_callback_done_unchanged_witness :
    (Fragment.view ⟨4, true, true, [82, 111, 111, 116], 4, COLON⟩
        ({ stream_parser_pacman_config_paths_init [47, 0] 2 [47, 118, 0] 3 with
            curr := none, root_path_length := 1, db_path_length := 2 } :
          stream_pacman_config_paths_t)).data.curr = none ∧
    stream_parser_pacman_config_paths_callback
        (Fragment.view ⟨4, true, true, [82, 111, 111, 116], 4, COLON⟩
          ({ stream_parser_pacman_config_paths_init [47, 0] 2 [47, 118, 0] 3 with
              curr := none, root_path_length := 1, db_path_length := 2 } :
            stream_pacman_config_paths_t)) =
      (Fragment.view ⟨4, true, true, [82, 111, 111, 116], 4, COLON⟩
        ({ stream_parser_pacman_config_paths_init [47, 0] 2 [47, 118, 0] 3 with
            curr := none, root_path_length := 1, db_path_length := 2 } :
          stream_pacman_config_paths_t)).data :=
  ⟨rfl, config_callback_done_unchanged _ rfl⟩

/-- C17 at `foo`, CR, LF, `bar`, LF, `x`, cut inside `bar`: the entries are `foo`, the
empty string and `bar`. -/
theorem collector_one_entry_per_delimiter_witness :
    ((∀ c ∈ [[102, 111, 111, 13, 10, 98, 97], [114, 10, 120]], c ≠ []) ∧
      (∀ c ∈ [[102, 111, 111, 13, 10, 98, 97], [114, 10, 120]], 0 ∉ c) ∧
      (List.replicate 255 0).length = NAME_MAX ∧
      runs_below NAME_MAX [CR, LF] [[102, 111, 111, 13, 10, 98, 97], [114, 10, 120]].flatten) ∧
    (foreign_packages_stream_handler [[102, 111, 111, 13, 10, 98, 97], [114, 10, 120]]
        (List.replicate 255 0) []).list =
      (closed_runs [CR, LF]
        [[102, 111, 111, 13, 10, 98, 97], [114, 10, 120]].flatten).map Prod.fst :=
  ⟨⟨by decide, by decide, List.length_replicate _ _, by decide⟩,
   (collector_one_entry_per_delimiter [[102, 111, 111, 13, 10, 98, 97], [114, 10, 120]]
     (List.replicate 255 0) (by decide) (by decide) (List.length_replicate _ _)
     (by decide)).1⟩

/-- C18 at the chunk `a:b` with two stale bytes behind its NUL, with the recording
callback and fuel 10. -/
theorem stream_parser_scan_stays_in_chunk_witness :
    (1 ≤ [97, 58, 98].length ∧ [97, 58, 98].length ≤ BUFFER_SIZE - 1 ∧
      [97, 58, 98].length + 1 ≤ 10) ∧
    (stream_parser_scan_at record_callback 10
        { stream_parser_init ([] : List Fragment) with delims := some [COLON, CR, LF] }
        ([97, 58, 98] ++ 0 :: [7, 7]) 0 =
      stream_parser_scan_at record_callback ([97, 58, 98].length + 1)
        { stream_parser_init ([] : List Fragment) with delims := some [COLON, CR, LF] }
        ([97, 58, 98] ++ 0 :: [7, 7]) 0) :=
  ⟨⟨by decide, by decide, by decide⟩,
   (stream_parser_scan_stays_in_chunk record_callback
     { stream_parser_init ([] : List Fragment) with delims := some [COLON, CR, LF] }
     [97, 58, 98] [7, 7] BUFFER_SIZE 10 (by decide) (by decide) (by decide)).1⟩

set_option maxRecDepth 20000

/-- C15 at its failing input: a run of 255 bytes `a` in one chunk, then LF. The first
callback copies 255 bytes, which fills `pkg`, and the closing callback stores the NUL at
`pkg[255]`, one past the end of the array. -/
theorem collector_overruns_on_long_name :
    (foreign_packages_stream_handler [List.replicate 255 97, [LF]]
      (List.replicate 255 0) []).overrun = true := by
  decide

/-- C16 at its failing input: the dump `Root:  /`, `DB Path:/v` gives the root path `/`
in one chunk and ` /`, with the length 2, when the chunk boundary falls between the two
spaces. -/
theorem config_paths_depend_on_chunking :
    c_string (pacman_config_paths_stream_handler
        [[82, 111, 111, 116, 58, 32, 32, 47, 10, 68, 66, 32, 80, 97, 116, 104, 58, 47, 118, 10]]
        (List.replicate 16 0) 16 (List.replicate 16 0) 16).root_path = [47] ∧
    (pacman_config_paths_stream_handler
        [[82, 111, 111, 116, 58, 32, 32, 47, 10, 68, 66, 32, 80, 97, 116, 104, 58, 47, 118, 10]]
        (List.replicate 16 0) 16 (List.replicate 16 0) 16).root_path_length = 1 ∧
    c_string (pacman_config_paths_stream_handler
        [[82, 111, 111, 116, 58, 32], [32, 47, 10, 68, 66, 32, 80, 97, 116, 104, 58, 47, 118, 10]]
        (List.replicate 16 0) 16 (List.replicate 16 0) 16).root_path = [32, 47] ∧
    (pacman_config_paths_stream_handler
        [[82, 111, 111, 116, 58, 32], [32, 47, 10, 68, 66, 32, 80, 97, 116, 104, 58, 47, 118, 10]]
        (List.replicate 16 0) 16 (List.replicate 16 0) 16).root_path_length = 2 := by
  decide

end Aurbrokenpkgcheck
